import Mathlib

/-!
Verification of the queue-and-virtual-timer engine of the erod-ticket
application (`app.py`, `models.py`).

The embedding models the database as an in-memory list of `Person` records
together with the singleton `Setting` record.  Wall-clock instants are
modelled as integers (seconds); `datetime.utcnow()` becomes an explicit
`now : Int` argument threaded through every operation.  SQLAlchemy queries
are modelled as filters and stable insertion sorts over the person list,
and per-row updates as maps over that list (rows are identified by their
primary key `id`; all interesting states have pairwise distinct ids, which
theorems assume explicitly where needed).  Operations that can raise
(`reorder_waiting`, `move_person_to`, `api_set_tour_length`) return
`Except String`; a raised error produces no successor state, matching the
fact that in the source every raise happens before any session commit.
-/

namespace Erod

/-- `Person.status` column: the source only ever stores the two strings
`waiting` and `passed`. -/
inductive Status where
  | waiting
  | passed
deriving DecidableEq, Repr

/-- A row of the `persons` table (`models.py`). -/
structure Person where
  id : Nat
  name : String
  status : Status
  position : Option Int
  addedAt : Int
  passedAt : Option Int
deriving DecidableEq, Repr

/-- The singleton `settings` row (`models.py`). -/
structure Setting where
  tourLengthSeconds : Int
  timerPaused : Bool
  startTime : Option Int
  timeRemainingOnPause : Option Int
deriving DecidableEq, Repr

/-- The whole mutable state: the `persons` table plus the settings
singleton. -/
structure AppState where
  persons : List Person
  setting : Setting
deriving DecidableEq, Repr

/-- Python truthiness of a nullable integer `position` column:
`None` and `0` are falsy. -/
def posTruthy : Option Int → Bool
  | none => false
  | some v => decide (v ≠ 0)

/-- `a > b` on nullable integers, used where the source compares two
position columns (`w.position > first.position`).  The source only reaches
such comparisons with both values non-null; on a null the comparison is
conservatively false. -/
def ogtB : Option Int → Option Int → Bool
  | some x, some y => decide (y < x)
  | _, _ => false

/-- `a >= k` for a nullable position against a concrete integer. -/
def ogeB : Option Int → Int → Bool
  | some x, k => decide (k ≤ x)
  | none, _ => false

/-- `a < k` for a nullable position against a concrete integer. -/
def oltB : Option Int → Int → Bool
  | some x, k => decide (x < k)
  | none, _ => false

/-- `a <= k` for a nullable position against a concrete integer. -/
def oleB : Option Int → Int → Bool
  | some x, k => decide (x ≤ k)
  | none, _ => false

/-- `a > k` for a nullable position against a concrete integer. -/
def ogtkB : Option Int → Int → Bool
  | some x, k => decide (k < x)
  | none, _ => false

/-- `Person.query.filter_by(status='waiting').all()` without ordering. -/
def waitingList (ps : List Person) : List Person :=
  ps.filter (fun p => p.status == Status.waiting)

/-- The ids of the waiting entries (the set built by `reorder_waiting`). -/
def waitingIds (ps : List Person) : List Nat :=
  (waitingList ps).map Person.id

/-- Number of waiting entries. -/
def nWaiting (ps : List Person) : Nat :=
  (waitingList ps).length

/-- Ordering used by `order_by(Person.position)`: ascending position with
nulls first (the SQLite default used by the fallback configuration). -/
def posLE (a b : Person) : Prop :=
  match a.position, b.position with
  | none, _ => True
  | some _, none => False
  | some x, some y => x ≤ y

instance : DecidableRel posLE := fun a b => by
  unfold posLE
  exact match a.position, b.position with
    | none, _ => inferInstanceAs (Decidable True)
    | some _, none => inferInstanceAs (Decidable False)
    | some x, some y => inferInstanceAs (Decidable (x ≤ y))

instance : IsTotal Person posLE := by
  constructor
  intro a b
  unfold posLE
  rcases h1 : a.position with _ | x <;> rcases h2 : b.position with _ | y <;> simp <;> omega

instance : IsTrans Person posLE := by
  constructor
  intro a b c hab hbc
  unfold posLE at *
  rcases h1 : a.position with _ | x <;> rcases h2 : b.position with _ | y <;>
    rcases h3 : c.position with _ | z <;> simp_all <;> omega

/-- `Person.query.filter_by(status='waiting').order_by(Person.position)`,
as a stable sort of the waiting rows. -/
def waitingSorted (ps : List Person) : List Person :=
  List.insertionSort posLE (waitingList ps)

/-- Ordering used by `order_by(Person.passed_at.desc())`: descending
`passed_at` with nulls last. -/
def passedGE (a b : Person) : Prop :=
  match a.passedAt, b.passedAt with
  | none, none => True
  | none, some _ => False
  | some _, none => True
  | some x, some y => y ≤ x

instance : DecidableRel passedGE := fun a b => by
  unfold passedGE
  exact match a.passedAt, b.passedAt with
    | none, none => inferInstanceAs (Decidable True)
    | none, some _ => inferInstanceAs (Decidable False)
    | some _, none => inferInstanceAs (Decidable True)
    | some x, some y => inferInstanceAs (Decidable (y ≤ x))

instance : IsTotal Person passedGE := by
  constructor
  intro a b
  unfold passedGE
  rcases h1 : a.passedAt with _ | x <;> rcases h2 : b.passedAt with _ | y <;> simp <;> omega

instance : IsTrans Person passedGE := by
  constructor
  intro a b c hab hbc
  unfold passedGE at *
  rcases h1 : a.passedAt with _ | x <;> rcases h2 : b.passedAt with _ | y <;>
    rcases h3 : c.passedAt with _ | z <;> simp_all <;> omega

/-- `Person.query.filter_by(status='passed').order_by(Person.passed_at.desc())`. -/
def passedSorted (ps : List Person) : List Person :=
  List.insertionSort passedGE (ps.filter (fun p => p.status == Status.passed))

/-- `compute_time_remaining_seconds` (`app.py` lines 56-63). -/
def compute_time_remaining_seconds (s : Setting) (now : Int) : Option Int :=
  if s.timerPaused then s.timeRemainingOnPause
  else
    match s.startTime with
    | none => none
    | some start => some (max (s.tourLengthSeconds - (now - start)) 0)

/-- The combined row updates of one iteration of the advance loop: the row
`fid` (the current head, whose position column held `fpos`) is marked
passed with `passed_at = t` and its position cleared, and every other
waiting row with a truthy position greater than `fpos` has its position
decremented.  This is exactly the update pattern of `app.py` lines 89-103
(and of `advance_next` lines 142-152 and `move_person_to` lines 367-375). -/
def popAtMap (fid : Nat) (fpos : Option Int) (t : Int) (p : Person) : Person :=
  if p.id = fid then
    { p with status := Status.passed, passedAt := some t, position := none }
  else if p.status == Status.waiting && posTruthy p.position && ogtB p.position fpos then
    { p with position := p.position.map (fun x => x - 1) }
  else p

/-- The `while True` loop of `process_timer_advances` (`app.py` lines
75-112), with explicit fuel.  Each iteration that does not break strictly
decreases the number of waiting rows, so the fuel `persons.length + 1`
used by `process_timer_advances` always suffices. -/
def ptaLoop (now : Int) : Nat → AppState → AppState
  | 0, st => st
  | fuel + 1, st =>
    match st.setting.startTime with
    | none => st
    | some start =>
      if now - start < st.setting.tourLengthSeconds then st
      else
        match (waitingSorted st.persons).head? with
        | none =>
          { st with
            setting := { st.setting with startTime := none, timeRemainingOnPause := none } }
        | some first =>
          let persons1 :=
            st.persons.map (popAtMap first.id first.position (start + st.setting.tourLengthSeconds))
          let start1 : Option Int :=
            if (waitingSorted persons1).isEmpty then none
            else some (start + st.setting.tourLengthSeconds)
          ptaLoop now fuel { persons := persons1, setting := { st.setting with startTime := start1 } }

/-- `process_timer_advances` (`app.py` lines 66-112). -/
def process_timer_advances (st : AppState) (now : Int) : AppState :=
  if st.setting.timerPaused || st.setting.startTime.isNone then st
  else ptaLoop now (st.persons.length + 1) st

/-- `waiting[-1].position or len(waiting)` with empty-queue fallback 0
(`app.py` lines 116-120): the `or` makes a null or zero position fall
back to the length of the waiting list. -/
def add_maxPos (waiting : List Person) : Int :=
  match waiting.getLast? with
  | none => 0
  | some lastp =>
    match lastp.position with
    | some v => if v = 0 then (waiting.length : Int) else v
    | none => (waiting.length : Int)

/-- `add_person` (`app.py` lines 115-132).  The database assigns the fresh
primary key; here it is passed in as `newId`. -/
def add_person (st : AppState) (nm : String) (newId : Nat) (now : Int) : AppState × Person :=
  let maxPos : Int := add_maxPos (waitingSorted st.persons)
  let newp : Person :=
    { id := newId, name := nm, status := Status.waiting, position := some (maxPos + 1),
      addedAt := now, passedAt := none }
  let s := st.setting
  let s1 :=
    if s.startTime.isNone && !s.timerPaused then { s with startTime := some now }
    else if s.startTime.isNone && s.timerPaused then
      (if s.timeRemainingOnPause.isNone then { s with timeRemainingOnPause := some s.tourLengthSeconds } else s)
    else s
  ({ persons := st.persons ++ [newp], setting := s1 }, newp)

/-- `advance_next` (`app.py` lines 135-163). -/
def advance_next (st : AppState) (now : Int) : AppState × Option Person :=
  match (waitingSorted st.persons).head? with
  | none => (st, none)
  | some first =>
    let persons1 := st.persons.map (popAtMap first.id first.position now)
    let s := st.setting
    let start1 : Option Int :=
      if (waitingSorted persons1).isEmpty then none else some now
    let s1 := { s with startTime := start1 }
    let s2 :=
      if s.timerPaused then { s1 with timeRemainingOnPause := some s.tourLengthSeconds } else s1
    ({ persons := persons1, setting := s2 }, some (popAtMap first.id first.position now first))

/-- The `w.position = (w.position or 0) + 1` loop of `go_back`
(`app.py` lines 174-176), applied to the waiting rows. -/
def goBackShift (p : Person) : Person :=
  if p.status == Status.waiting then { p with position := some (p.position.getD 0 + 1) }
  else p

/-- The reinsertion of the most recently passed row at position 1
(`app.py` lines 177-179). -/
def goBackInsert (lpid : Nat) (p : Person) : Person :=
  if p.id = lpid then { p with status := Status.waiting, position := some 1, passedAt := none }
  else p

/-- The combined effect of the two `go_back` row updates on one row. -/
def goBackMap (lpid : Nat) (p : Person) : Person :=
  goBackInsert lpid (goBackShift p)

/-- `go_back` (`app.py` lines 166-187). -/
def go_back (st : AppState) (now : Int) : AppState × Option Person :=
  match (passedSorted st.persons).head? with
  | none => (st, none)
  | some lastPassed =>
    let persons1 := st.persons.map goBackShift
    let persons2 := persons1.map (goBackInsert lastPassed.id)
    let s := st.setting
    let s1 :=
      if !s.timerPaused then { s with startTime := some now }
      else { s with timeRemainingOnPause := some s.tourLengthSeconds }
    ({ persons := persons2, setting := s1 },
      some { lastPassed with status := Status.waiting, position := some 1, passedAt := none })

/-- The position-assignment loop of `reorder_waiting` (`app.py` lines
199-201): the row with id `pid` at index `idx` receives position
`idx + 1`; `k` is the position for the first id of the remaining list. -/
def applyOrder : List Nat → Int → List Person → List Person
  | [], _, ps => ps
  | pid :: rest, k, ps =>
    applyOrder rest (k + 1) (ps.map (fun p => if p.id = pid then { p with position := some k } else p))

/-- `reorder_waiting` (`app.py` lines 190-209).  Note that the validation
only checks that every given id belongs to a waiting row; it does not
check that every waiting id occurs, nor that ids are distinct. -/
def reorder_waiting (st : AppState) (ids : List Nat) (now : Int) : Except String AppState :=
  let wids := waitingIds st.persons
  if ids.all (fun i => wids.contains i) then
    let persons1 := applyOrder ids 1 st.persons
    let s := st.setting
    let s1 :=
      if !s.timerPaused then { s with startTime := some now }
      else { s with timeRemainingOnPause := some s.tourLengthSeconds }
    Except.ok { persons := persons1, setting := s1 }
  else Except.error "Invalid id in reorder"

/-- The timer reset at the end of `move_person_to` (`app.py` lines
379-389). -/
def finishMove (st : AppState) (now : Int) : AppState :=
  let s := st.setting
  let s1 :=
    if !s.timerPaused then
      match (waitingSorted st.persons).head? with
      | some _ => { s with startTime := some now }
      | none => { s with startTime := none }
    else { s with timeRemainingOnPause := some s.tourLengthSeconds }
  { st with setting := s1 }

/-- `move_person_to` (`app.py` lines 320-389). -/
def move_person_to (st : AppState) (personId : Nat) (toStatus : String)
    (toPosition : Option Int) (now : Int) : Except String AppState :=
  match st.persons.find? (fun p => p.id == personId) with
  | none => Except.error "person not found"
  | some p =>
    if toStatus = "waiting" then
      if p.status == Status.passed then
        let waiting := waitingSorted st.persons
        let insertPos : Int :=
          match toPosition with
          | none => 1
          | some tp => if tp < 1 then 1 else min ((waiting.length : Int) + 1) tp
        let persons1 := st.persons.map (fun w =>
          if w.status == Status.waiting && posTruthy w.position && ogeB w.position insertPos then
            { w with position := w.position.map (fun x => x + 1) }
          else w)
        let persons2 := persons1.map (fun q =>
          if q.id = p.id then
            { q with status := Status.waiting, position := some insertPos, passedAt := none }
          else q)
        Except.ok (finishMove { st with persons := persons2 } now)
      else
        -- p.status == 'waiting': reposition within the waiting list
        match toPosition with
        | none => Except.ok st
        | some tpRaw =>
          let waiting := waitingSorted st.persons
          let toPos : Int := max 1 (min (waiting.length : Int) tpRaw)
          if p.position == some toPos then Except.ok st
          else
            -- the source reads `old_pos = p.position` as an integer; a
            -- waiting row always has a non-null position in valid states
            let oldPos : Int := p.position.getD 0
            let persons1 :=
              if toPos < oldPos then
                st.persons.map (fun w =>
                  if w.status == Status.waiting && ogeB w.position toPos && oltB w.position oldPos then
                    { w with position := w.position.map (fun x => x + 1) }
                  else w)
              else
                st.persons.map (fun w =>
                  if w.status == Status.waiting && oleB w.position toPos && ogtkB w.position oldPos then
                    { w with position := w.position.map (fun x => x - 1) }
                  else w)
            let persons2 := persons1.map (fun q =>
              if q.id = p.id then { q with position := some toPos } else q)
            Except.ok (finishMove { st with persons := persons2 } now)
    else if toStatus = "passed" then
      let persons1 :=
        if p.status == Status.waiting then st.persons.map (popAtMap p.id p.position now)
        else st.persons.map (fun q =>
          if q.id = p.id then { q with status := Status.passed, passedAt := some now } else q)
      Except.ok (finishMove { st with persons := persons1 } now)
    else Except.error "invalid target status"

/-- `api_pause` (`app.py` lines 279-304): toggles between paused and
running.  Note that pausing does not clear `start_time`. -/
def api_pause (st : AppState) (now : Int) : AppState :=
  let s := st.setting
  if s.timerPaused then
    -- resume
    let r : Int :=
      match s.timeRemainingOnPause with
      | none => s.tourLengthSeconds
      | some r => r
    { st with setting := { s with
        startTime := some (now - (s.tourLengthSeconds - r)),
        timeRemainingOnPause := none,
        timerPaused := false } }
  else
    -- pause
    let rem : Int :=
      match s.startTime with
      | none => s.tourLengthSeconds
      | some start => max (s.tourLengthSeconds - (now - start)) 0
    { st with setting := { s with timeRemainingOnPause := some rem, timerPaused := true } }

/-- The settings update of `api_set_tour_length` once a new length has
been accepted (`app.py` lines 412-423). -/
def applyTourLength (st : AppState) (newLen : Int) (now : Int) : AppState :=
  let s := { st.setting with tourLengthSeconds := newLen }
  let s1 :=
    if !s.timerPaused then { s with startTime := some now }
    else { s with timeRemainingOnPause := some newLen }
  { st with setting := s1 }

/-- `api_set_tour_length` (`app.py` lines 407-424).  `minutes` and
`seconds` are the two optional numeric payload fields; `minutes` wins when
both are present. -/
def api_set_tour_length (st : AppState) (minutes : Option Int) (seconds : Option Int)
    (now : Int) : Except String AppState :=
  match minutes with
  | some m => Except.ok (applyTourLength st (m * 60) now)
  | none =>
    match seconds with
    | some v => Except.ok (applyTourLength st v now)
    | none => Except.error "seconds or minutes required"

/-- `estimate_wait_minutes` (`app.py` lines 212-216). -/
def estimate_wait_minutes (s : Setting) (p : Person) : Int :=
  if posTruthy p.position = false then 0
  else (p.position.getD 0 - 1) * s.tourLengthSeconds / 60

/-- Extract the state of a successful result, with a default for the
error case. -/
def exceptState (e : Except String AppState) (d : AppState) : AppState :=
  match e with
  | Except.ok s => s
  | Except.error _ => d

/-- The multiset of positions invariant I1 compares against:
`[some 1, ..., some N]`. -/
def posTarget (n : Nat) : List (Option Int) :=
  (List.range n).map (fun (i : Nat) => some ((i : Int) + 1))

/-- The position columns of the waiting rows, in table order. -/
def wPositions (ps : List Person) : List (Option Int) :=
  (waitingList ps).map Person.position

/-- Invariant I1: the positions of the waiting rows are exactly
`1..N` (as a multiset), each exactly once, where `N` is the number of
waiting rows. -/
def I1 (ps : List Person) : Prop :=
  List.Perm (wPositions ps) (posTarget (nWaiting ps))

instance (ps : List Person) : Decidable (I1 ps) :=
  inferInstanceAs (Decidable (List.Perm _ _))

/-- Pairwise-distinct primary keys, as guaranteed by the database. -/
def NodupIds (ps : List Person) : Prop :=
  (ps.map Person.id).Nodup

instance (ps : List Person) : Decidable (NodupIds ps) :=
  inferInstanceAs (Decidable (List.Nodup _))

/-- The expected multiplicity of a position value among `n` waiting rows
satisfying I1. -/
def optExpected (n : Nat) : Option Int → Nat
  | none => 0
  | some j => if 1 ≤ j ∧ j ≤ (n : Int) then 1 else 0

/-! ### Basic counting infrastructure -/

theorem mem_waitingList {ps : List Person} {p : Person} :
    p ∈ waitingList ps ↔ p ∈ ps ∧ p.status = Status.waiting := by
  simp [waitingList]

theorem waitingSorted_perm (ps : List Person) :
    List.Perm (waitingSorted ps) (waitingList ps) :=
  List.perm_insertionSort posLE (waitingList ps)

theorem mem_waitingSorted {ps : List Person} {p : Person} :
    p ∈ waitingSorted ps ↔ p ∈ ps ∧ p.status = Status.waiting := by
  rw [(waitingSorted_perm ps).mem_iff, mem_waitingList]

theorem length_waitingSorted (ps : List Person) :
    (waitingSorted ps).length = nWaiting ps :=
  (waitingSorted_perm ps).length_eq

theorem waitingSorted_eq_nil_iff {ps : List Person} :
    waitingSorted ps = [] ↔ nWaiting ps = 0 := by
  rw [← length_waitingSorted ps, List.length_eq_zero]

theorem passedSorted_perm (ps : List Person) :
    List.Perm (passedSorted ps) (ps.filter (fun p => p.status == Status.passed)) :=
  List.perm_insertionSort passedGE _

theorem mem_passedSorted {ps : List Person} {p : Person} :
    p ∈ passedSorted ps ↔ p ∈ ps ∧ p.status = Status.passed := by
  rw [(passedSorted_perm ps).mem_iff]
  simp

theorem two_le_countP {α : Type _} [DecidableEq α] (q : α → Bool) (l : List α) (a b : α)
    (ha : a ∈ l) (hb : b ∈ l) (hne : a ≠ b) (hqa : q a) (hqb : q b) :
    2 ≤ l.countP q := by
  rw [List.countP_eq_length_filter]
  have ha' : a ∈ l.filter q := List.mem_filter.mpr ⟨ha, hqa⟩
  have hb' : b ∈ l.filter q := List.mem_filter.mpr ⟨hb, hqb⟩
  have hb'' : b ∈ (l.filter q).erase a := (List.mem_erase_of_ne (Ne.symm hne)).mpr hb'
  have h1 : 0 < ((l.filter q).erase a).length :=
    List.length_pos.mpr (List.ne_nil_of_mem hb'')
  have h2 : ((l.filter q).erase a).length = (l.filter q).length - 1 :=
    List.length_erase_of_mem ha'
  have h3 : 0 < (l.filter q).length := List.length_pos.mpr (List.ne_nil_of_mem ha')
  omega

theorem nodup_of_nodupIds {ps : List Person} (h : NodupIds ps) : ps.Nodup :=
  List.Nodup.of_map Person.id h

theorem id_inj {ps : List Person} (hnd : NodupIds ps) {p q : Person}
    (hp : p ∈ ps) (hq : q ∈ ps) (hid : p.id = q.id) : p = q :=
  List.inj_on_of_nodup_map hnd hp hq hid

/-- Occurrence count of a position value, phrased through `countP` so that
no `BEq` instance ambiguity can arise. -/
def cntV (l : List (Option Int)) (v : Option Int) : Nat :=
  l.countP (fun x => decide (x = v))

theorem cntV_posTarget (n : Nat) (v : Option Int) :
    cntV (posTarget n) v = optExpected n v := by
  induction n with
  | zero =>
    cases v with
    | none => simp [posTarget, cntV, optExpected]
    | some j =>
      simp only [posTarget, List.range_zero, List.map_nil, cntV, List.countP_nil, optExpected]
      split_ifs with h
      · omega
      · rfl
  | succ k ih =>
    have hsplit : posTarget (k + 1) = posTarget k ++ [some ((k : Int) + 1)] := by
      simp [posTarget, List.range_succ]
    unfold cntV at *
    rw [hsplit, List.countP_append, ih]
    cases v with
    | none => simp [optExpected]
    | some j =>
      simp only [optExpected, List.countP_cons, List.countP_nil]
      push_cast
      by_cases hj : j = (k : Int) + 1 <;> split_ifs <;> simp_all <;> omega

theorem I1_iff_count {ps : List Person} :
    I1 ps ↔ ∀ v : Option Int, cntV (wPositions ps) v = optExpected (nWaiting ps) v := by
  constructor
  · intro h v
    have hc : cntV (wPositions ps) v = cntV (posTarget (nWaiting ps)) v :=
      List.Perm.countP_eq _ h
    rw [hc, cntV_posTarget]
  · intro h
    unfold I1
    rw [List.perm_iff_count]
    intro v
    show cntV (wPositions ps) v = cntV (posTarget (nWaiting ps)) v
    rw [h v, cntV_posTarget]

theorem cnt_map (ps : List Person) (u : Person → Person) (v : Option Int) :
    cntV (wPositions (ps.map u)) v =
      ps.countP (fun p => decide ((u p).position = v) && decide ((u p).status = Status.waiting)) := by
  unfold cntV wPositions waitingList
  rw [List.filter_map, List.map_map, List.countP_map, List.countP_filter]
  rfl

theorem cnt_base (ps : List Person) (v : Option Int) :
    cntV (wPositions ps) v =
      ps.countP (fun p => decide (p.position = v) && decide (p.status = Status.waiting)) := by
  unfold cntV wPositions waitingList
  rw [List.countP_map, List.countP_filter]
  rfl

theorem nW_map (ps : List Person) (u : Person → Person) :
    nWaiting (ps.map u) = ps.countP (fun p => decide ((u p).status = Status.waiting)) := by
  unfold nWaiting waitingList
  rw [List.filter_map, List.length_map, ← List.countP_eq_length_filter]
  rfl

theorem nW_base (ps : List Person) :
    nWaiting ps = ps.countP (fun p => decide (p.status = Status.waiting)) := by
  unfold nWaiting waitingList
  rw [← List.countP_eq_length_filter]
  rfl

/-- Every waiting row of an I1 state carries a position in `1..N`. -/
theorem waiting_pos_bounds {ps : List Person} (hI1 : I1 ps) {p : Person}
    (hp : p ∈ ps) (hw : p.status = Status.waiting) :
    ∃ j : Int, p.position = some j ∧ 1 ≤ j ∧ j ≤ (nWaiting ps : Int) := by
  have hmem : p.position ∈ wPositions ps := by
    unfold wPositions
    exact List.mem_map.mpr ⟨p, mem_waitingList.mpr ⟨hp, hw⟩, rfl⟩
  have hpos : 0 < cntV (wPositions ps) p.position := by
    unfold cntV
    rw [List.countP_pos_iff]
    exact ⟨p.position, hmem, by simp⟩
  rw [(I1_iff_count.mp hI1) p.position] at hpos
  cases hv : p.position with
  | none => rw [hv] at hpos; simp [optExpected] at hpos
  | some j =>
    rw [hv] at hpos
    simp only [optExpected] at hpos
    split_ifs at hpos with hb
    · exact ⟨j, rfl, hb.1, hb.2⟩
    · simp at hpos

/-- In an I1 state, at most one waiting row holds a given position. -/
theorem waiting_pos_unique {ps : List Person} (hI1 : I1 ps) {p q : Person} {j : Int}
    (hp : p ∈ ps) (hwp : p.status = Status.waiting) (hjp : p.position = some j)
    (hq : q ∈ ps) (hwq : q.status = Status.waiting) (hjq : q.position = some j) :
    p = q := by
  by_contra hne
  have hcnt := (I1_iff_count.mp hI1) (some j)
  rw [cnt_base] at hcnt
  have h2 : 2 ≤ ps.countP
      (fun r => decide (r.position = some j) && decide (r.status = Status.waiting)) := by
    apply two_le_countP _ _ p q hp hq hne
    · simp [hjp, hwp]
    · simp [hjq, hwq]
  have hle : optExpected (nWaiting ps) (some j) ≤ 1 := by
    simp only [optExpected]
    split_ifs <;> omega
  omega

/-- An I1 state with `1 ≤ j ≤ N` owns a waiting row at position `j`. -/
theorem waiting_pos_surj {ps : List Person} (hI1 : I1 ps) {j : Int}
    (h1 : 1 ≤ j) (hN : j ≤ (nWaiting ps : Int)) :
    ∃ p ∈ ps, p.status = Status.waiting ∧ p.position = some j := by
  have hcnt := (I1_iff_count.mp hI1) (some j)
  have hpos : 0 < cntV (wPositions ps) (some j) := by
    rw [hcnt]
    simp only [optExpected]
    split_ifs with h
    · omega
    · exact absurd ⟨h1, hN⟩ h
  unfold cntV at hpos
  rw [List.countP_pos_iff] at hpos
  obtain ⟨v, hv, hveq⟩ := hpos
  simp only [decide_eq_true_eq] at hveq
  subst hveq
  unfold wPositions at hv
  obtain ⟨p, hpmem, hpeq⟩ := List.mem_map.mp hv
  obtain ⟨hp1, hp2⟩ := mem_waitingList.mp hpmem
  exact ⟨p, hp1, hp2, hpeq⟩

/-! ### Heads and last elements of the sorted views -/

theorem pairwise_rel_getLast {α : Type _} {r : α → α → Prop} :
    ∀ (l : List α) (hne : l ≠ []), List.Pairwise r l →
      ∀ x ∈ l, x = l.getLast hne ∨ r x (l.getLast hne)
  | [], hne, _, _, _ => absurd rfl hne
  | [a], _, _, x, hx => by
    simp only [List.mem_singleton] at hx
    subst hx
    exact Or.inl rfl
  | a :: b :: t, hne, hp, x, hx => by
    have hne2 : b :: t ≠ [] := List.cons_ne_nil b t
    have hlast : (a :: b :: t).getLast hne = (b :: t).getLast hne2 :=
      List.getLast_cons hne2
    rcases List.mem_cons.mp hx with hxa | hxbt
    · subst hxa
      right
      rw [hlast]
      exact (List.pairwise_cons.mp hp).1 _ (List.getLast_mem hne2)
    · rw [hlast]
      exact pairwise_rel_getLast (b :: t) hne2 (List.pairwise_cons.mp hp).2 x hxbt

/-- In an I1 state with a nonempty waiting queue, the first row of the
position-ordered waiting query is the (unique) row at position 1. -/
theorem head_waitingSorted {ps : List Person} (hI1 : I1 ps) (hN : 1 ≤ nWaiting ps) :
    ∃ hd, (waitingSorted ps).head? = some hd ∧ hd ∈ ps ∧ hd.status = Status.waiting ∧
      hd.position = some 1 := by
  have hne : waitingSorted ps ≠ [] := by
    intro h
    rw [waitingSorted_eq_nil_iff] at h
    omega
  refine ⟨(waitingSorted ps).head hne, List.head?_eq_head hne, ?_⟩
  have hmem : (waitingSorted ps).head hne ∈ waitingSorted ps := List.head_mem hne
  obtain ⟨hin, hwait⟩ := mem_waitingSorted.mp hmem
  refine ⟨hin, hwait, ?_⟩
  obtain ⟨j, hj, hj1, hjN⟩ := waiting_pos_bounds hI1 hin hwait
  obtain ⟨p1, hp1in, hp1w, hp1pos⟩ := waiting_pos_surj hI1 (le_refl 1) (by exact_mod_cast hN)
  have hp1sorted : p1 ∈ waitingSorted ps := mem_waitingSorted.mpr ⟨hp1in, hp1w⟩
  have hsorted : List.Sorted posLE (waitingSorted ps) :=
    List.sorted_insertionSort posLE (waitingList ps)
  rw [← List.head_cons_tail _ hne] at hp1sorted hsorted
  rcases List.mem_cons.mp hp1sorted with heq | htail
  · rw [← heq, hp1pos]
  · have hrel : posLE ((waitingSorted ps).head hne) p1 :=
      List.rel_of_sorted_cons hsorted p1 htail
    unfold posLE at hrel
    rw [hj, hp1pos] at hrel
    have : j = 1 := by
      simp only at hrel
      omega
    rw [hj, this]

/-- In an I1 state with a nonempty waiting queue, the last row of the
position-ordered waiting query is the row at position `N`. -/
theorem getLast_waitingSorted {ps : List Person} (hI1 : I1 ps) (hN : 1 ≤ nWaiting ps) :
    ∃ lastp, (waitingSorted ps).getLast? = some lastp ∧ lastp ∈ ps ∧
      lastp.status = Status.waiting ∧ lastp.position = some (nWaiting ps : Int) := by
  have hne : waitingSorted ps ≠ [] := by
    intro h
    rw [waitingSorted_eq_nil_iff] at h
    omega
  refine ⟨(waitingSorted ps).getLast hne, List.getLast?_eq_getLast _ hne, ?_⟩
  have hmem : (waitingSorted ps).getLast hne ∈ waitingSorted ps := List.getLast_mem hne
  obtain ⟨hin, hwait⟩ := mem_waitingSorted.mp hmem
  refine ⟨hin, hwait, ?_⟩
  obtain ⟨j, hj, hj1, hjN⟩ := waiting_pos_bounds hI1 hin hwait
  obtain ⟨pN, hpNin, hpNw, hpNpos⟩ :=
    waiting_pos_surj hI1 (by exact_mod_cast hN) (le_refl _)
  have hpNsorted : pN ∈ waitingSorted ps := mem_waitingSorted.mpr ⟨hpNin, hpNw⟩
  have hsorted : List.Sorted posLE (waitingSorted ps) :=
    List.sorted_insertionSort posLE (waitingList ps)
  rcases pairwise_rel_getLast _ hne hsorted pN hpNsorted with heq | hrel
  · rw [← heq, hpNpos]
  · unfold posLE at hrel
    rw [hj, hpNpos] at hrel
    have : j = (nWaiting ps : Int) := by
      simp only at hrel
      omega
    rw [hj, this]

theorem waitingSorted_head?_eq_none_iff {ps : List Person} :
    (waitingSorted ps).head? = none ↔ nWaiting ps = 0 := by
  rw [List.head?_eq_none_iff, waitingSorted_eq_nil_iff]

/-- If `q0` is a passed row whose `passed_at` strictly dominates every
other passed row, then `q0` is the head of the `passed_at`-descending
query. -/
theorem head_passedSorted {ps : List Person} {q0 : Person} {t0 : Int}
    (hq0 : q0 ∈ ps) (hst : q0.status = Status.passed) (hpa : q0.passedAt = some t0)
    (hmax : ∀ q ∈ ps, q.status = Status.passed → q ≠ q0 →
      q.passedAt = none ∨ ∃ t, q.passedAt = some t ∧ t < t0) :
    (passedSorted ps).head? = some q0 := by
  have hq0s : q0 ∈ passedSorted ps := mem_passedSorted.mpr ⟨hq0, hst⟩
  have hne : passedSorted ps ≠ [] := List.ne_nil_of_mem hq0s
  rw [List.head?_eq_head hne]
  have hmem : (passedSorted ps).head hne ∈ passedSorted ps := List.head_mem hne
  obtain ⟨hin, hpass⟩ := mem_passedSorted.mp hmem
  by_cases heq : (passedSorted ps).head hne = q0
  · rw [heq]
  · exfalso
    have hsorted : List.Sorted passedGE (passedSorted ps) :=
      List.sorted_insertionSort passedGE _
    rw [← List.head_cons_tail _ hne] at hq0s hsorted
    rcases List.mem_cons.mp hq0s with habs | htail
    · exact heq habs.symm
    · have hrel : passedGE ((passedSorted ps).head hne) q0 :=
        List.rel_of_sorted_cons hsorted q0 htail
      unfold passedGE at hrel
      rcases hmax _ hin hpass heq with hnone | ⟨t, ht, htlt⟩
      · rw [hnone, hpa] at hrel
        exact hrel
      · rw [ht, hpa] at hrel
        simp only at hrel
        omega

/-! ### Invariant preservation: counting lemmas for each update shape -/

theorem countP_split {α : Type _} (l : List α) (p q : α → Bool) :
    l.countP p = l.countP (fun a => p a && q a) + l.countP (fun a => p a && !q a) := by
  rw [List.countP_eq_countP_filter_add l p q, List.countP_filter, List.countP_filter]

theorem countP_eq_one_of_unique {α : Type _} [DecidableEq α] {l : List α} (hnd : l.Nodup)
    {a : α} (ha : a ∈ l) (q : α → Bool) (hqa : q a) (huniq : ∀ x ∈ l, q x → x = a) :
    l.countP q = 1 := by
  have hcong : l.countP q = l.countP (fun x => decide (x = a)) := by
    apply List.countP_congr
    intro x hx
    constructor
    · intro hqx
      simp only [decide_eq_true_eq]
      exact huniq x hx hqx
    · intro hxa
      simp only [decide_eq_true_eq] at hxa
      subst hxa
      exact hqa
  rw [hcong]
  exact List.count_eq_one_of_mem hnd ha

/-- The update of one pop step (`popAtMap`) turns an I1 state with `p0`
waiting at position `op` into an I1 state with one fewer waiting row. -/
theorem popAt_I1 {ps : List Person} (hI1 : I1 ps) (hnd : NodupIds ps)
    {p0 : Person} (h0 : p0 ∈ ps) (hw : p0.status = Status.waiting) (t : Int) :
    nWaiting (ps.map (popAtMap p0.id p0.position t)) = nWaiting ps - 1 ∧
    I1 (ps.map (popAtMap p0.id p0.position t)) := by
  obtain ⟨op, hop, h1op, hopN⟩ := waiting_pos_bounds hI1 h0 hw
  have hN1 : 1 ≤ nWaiting ps := by exact_mod_cast le_trans h1op hopN
  -- how the update acts on each row
  have hchar : ∀ p ∈ ps, (p = p0) ∨
      (p ≠ p0 ∧ p.status = Status.waiting ∧ ∃ j, p.position = some j ∧
        1 ≤ j ∧ j ≤ (nWaiting ps : Int) ∧
        ((op < j ∧ popAtMap p0.id p0.position t p = { p with position := some (j - 1) }) ∨
         (j < op ∧ popAtMap p0.id p0.position t p = p))) ∨
      (p ≠ p0 ∧ p.status = Status.passed ∧ popAtMap p0.id p0.position t p = p) := by
    intro p hp
    by_cases hid : p.id = p0.id
    · exact Or.inl (id_inj hnd hp h0 hid)
    · have hpne : p ≠ p0 := fun h => hid (by rw [h])
      by_cases hst : p.status = Status.waiting
      · obtain ⟨j, hj, h1j, hjN⟩ := waiting_pos_bounds hI1 hp hst
        have hjop : j ≠ op := by
          intro h
          exact hpne (waiting_pos_unique hI1 hp hst (h ▸ hj) h0 hw hop)
        refine Or.inr (Or.inl ⟨hpne, hst, j, hj, h1j, hjN, ?_⟩)
        by_cases hlt : op < j
        · refine Or.inl ⟨hlt, ?_⟩
          have hguard : (p.status == Status.waiting && posTruthy p.position &&
              ogtB p.position p0.position) = true := by
            rw [hst, hj, hop]
            have hj0 : j ≠ 0 := by omega
            simp [posTruthy, ogtB, hj0, hlt]
          unfold popAtMap
          rw [if_neg hid, if_pos hguard, hj]
          rfl
        · refine Or.inr ⟨by omega, ?_⟩
          have hguard : ¬((p.status == Status.waiting && posTruthy p.position &&
              ogtB p.position p0.position) = true) := by
            rw [hst, hj, hop]
            simp [posTruthy, ogtB]
            intro h1
            omega
          unfold popAtMap
          rw [if_neg hid, if_neg hguard]
      · have hpass : p.status = Status.passed := by
          cases hs : p.status
          · exact absurd hs hst
          · rfl
        refine Or.inr (Or.inr ⟨hpne, hpass, ?_⟩)
        have hguard : ¬((p.status == Status.waiting && posTruthy p.position &&
            ogtB p.position p0.position) = true) := by
          simp [hpass]
        unfold popAtMap
        rw [if_neg hid, if_neg hguard]
  have hp0eq : popAtMap p0.id p0.position t p0 =
      { p0 with status := Status.passed, passedAt := some t, position := none } := by
    unfold popAtMap
    rw [if_pos rfl]
  -- the waiting count decreases by exactly one
  have hnw : nWaiting (ps.map (popAtMap p0.id p0.position t)) = nWaiting ps - 1 := by
    rw [nW_map]
    have hsplit := countP_split ps (fun p => decide (p.status = Status.waiting))
      (fun p => decide (p = p0))
    have hone : ps.countP
        (fun p => decide (p.status = Status.waiting) && decide (p = p0)) = 1 := by
      apply countP_eq_one_of_unique (nodup_of_nodupIds hnd) h0
      · simp [hw]
      · intro x _ hx
        simp only [Bool.and_eq_true, decide_eq_true_eq] at hx
        exact hx.2
    have hrest : ps.countP (fun p => decide ((popAtMap p0.id p0.position t p).status = Status.waiting)) =
        ps.countP (fun p => decide (p.status = Status.waiting) && !(decide (p = p0))) := by
      apply List.countP_congr
      intro p hp
      rcases hchar p hp with h | ⟨hne, hst, j, hj, h1j, hjN, ⟨hlt, heq⟩ | ⟨hlt, heq⟩⟩ |
        ⟨hne, hst, heq⟩
      · subst h
        rw [hp0eq]
        simp
      · rw [heq]
        simp [hst, hne]
      · rw [heq]
        simp [hst, hne]
      · rw [heq]
        simp [hst, hne]
    rw [hrest, ← nW_base] at *
    omega
  refine ⟨hnw, ?_⟩
  rw [I1_iff_count]
  intro v
  rw [hnw, cnt_map]
  cases v with
  | none =>
    have hzero : ps.countP (fun p =>
        decide ((popAtMap p0.id p0.position t p).position = none) &&
        decide ((popAtMap p0.id p0.position t p).status = Status.waiting)) = 0 := by
      rw [List.countP_eq_zero]
      intro p hp
      rcases hchar p hp with h | ⟨hne, hst, j, hj, h1j, hjN, ⟨hlt, heq⟩ | ⟨hlt, heq⟩⟩ |
        ⟨hne, hst, heq⟩
      · subst h
        rw [hp0eq]
        simp
      · rw [heq]
        simp [hst, hj]
      · rw [heq]
        simp [hst, hj]
      · rw [heq]
        simp [hst]
    rw [hzero]
    rfl
  | some m =>
    by_cases hm : op ≤ m
    · -- rows counted at `m` in the image were at `m + 1` before
      have hcong : ps.countP (fun p =>
          decide ((popAtMap p0.id p0.position t p).position = some m) &&
          decide ((popAtMap p0.id p0.position t p).status = Status.waiting)) =
          ps.countP (fun p =>
            decide (p.position = some (m + 1)) && decide (p.status = Status.waiting)) := by
        apply List.countP_congr
        intro p hp
        rcases hchar p hp with h | ⟨hne, hst, j, hj, h1j, hjN, ⟨hlt, heq⟩ | ⟨hlt, heq⟩⟩ |
          ⟨hne, hst, heq⟩
        · subst h
          rw [hp0eq]
          simp only [Bool.and_eq_true, decide_eq_true_eq]
          constructor
          · rintro ⟨h1, -⟩
            exact absurd h1 (by simp)
          · rintro ⟨h1, -⟩
            rw [hop] at h1
            injection h1 with h1
            omega
        · rw [heq] <;> simp only [Bool.and_eq_true, decide_eq_true_eq, hst, hj, and_true,
            Option.some.injEq] <;> (constructor <;> intro h <;> omega)
        · rw [heq] <;> simp only [Bool.and_eq_true, decide_eq_true_eq, hst, hj, and_true,
            Option.some.injEq] <;> (constructor <;> intro h <;> omega)
        · rw [heq] <;> simp [hst]
      rw [hcong, ← cnt_base, (I1_iff_count.mp hI1) (some (m + 1))]
      simp only [optExpected]
      have hNc : (1 : Int) ≤ (nWaiting ps : Int) := by exact_mod_cast hN1
      split_ifs <;> push_cast at * <;> omega
    · -- rows counted at `m` in the image were at `m` before
      push_neg at hm
      have hcong : ps.countP (fun p =>
          decide ((popAtMap p0.id p0.position t p).position = some m) &&
          decide ((popAtMap p0.id p0.position t p).status = Status.waiting)) =
          ps.countP (fun p =>
            decide (p.position = some m) && decide (p.status = Status.waiting)) := by
        apply List.countP_congr
        intro p hp
        rcases hchar p hp with h | ⟨hne, hst, j, hj, h1j, hjN, ⟨hlt, heq⟩ | ⟨hlt, heq⟩⟩ |
          ⟨hne, hst, heq⟩
        · subst h
          rw [hp0eq]
          simp only [Bool.and_eq_true, decide_eq_true_eq]
          constructor
          · rintro ⟨h1, -⟩
            exact absurd h1 (by simp)
          · rintro ⟨h1, -⟩
            rw [hop] at h1
            injection h1 with h1
            omega
        · rw [heq] <;> simp only [Bool.and_eq_true, decide_eq_true_eq, hst, hj, and_true,
            Option.some.injEq] <;> (constructor <;> intro h <;> omega)
        · rw [heq] <;> simp only [Bool.and_eq_true, decide_eq_true_eq, hst, hj, and_true,
            Option.some.injEq] <;> (constructor <;> intro h <;> omega)
        · rw [heq] <;> simp [hst]
      rw [hcong, ← cnt_base, (I1_iff_count.mp hI1) (some m)]
      simp only [optExpected]
      split_ifs <;> push_cast at * <;> omega

/-! ### The catch-up loop: unfolding, termination bound, idempotence -/

theorem popAtMap_id (fid : Nat) (fpos : Option Int) (t : Int) (p : Person) :
    (popAtMap fid fpos t p).id = p.id := by
  unfold popAtMap
  split_ifs <;> rfl

theorem nodupIds_map {ps : List Person} (u : Person → Person)
    (hu : ∀ p, (u p).id = p.id) (hnd : NodupIds ps) : NodupIds (ps.map u) := by
  unfold NodupIds at *
  rw [List.map_map]
  have : ps.map (Person.id ∘ u) = ps.map Person.id := by
    apply List.map_congr_left
    intro p _
    exact hu p
  rw [this]
  exact hnd

theorem ptaLoop_zero (now : Int) (st : AppState) : ptaLoop now 0 st = st := rfl

theorem ptaLoop_start_none {st : AppState} (hs : st.setting.startTime = none)
    (now : Int) (fuel : Nat) : ptaLoop now fuel st = st := by
  cases fuel with
  | zero => rfl
  | succ f =>
    unfold ptaLoop
    simp only [hs]

theorem ptaLoop_break {st : AppState} {a : Int} (hs : st.setting.startTime = some a)
    (now : Int) (hlt : now - a < st.setting.tourLengthSeconds) (fuel : Nat) :
    ptaLoop now fuel st = st := by
  cases fuel with
  | zero => rfl
  | succ f =>
    unfold ptaLoop
    simp only [hs]
    rw [if_pos hlt]

theorem ptaLoop_empty {st : AppState} {a : Int} (hs : st.setting.startTime = some a)
    (now : Int) (hge : ¬(now - a < st.setting.tourLengthSeconds))
    (hemp : (waitingSorted st.persons).head? = none) (fuel : Nat) :
    ptaLoop now (fuel + 1) st =
      { st with setting := { st.setting with startTime := none, timeRemainingOnPause := none } } := by
  unfold ptaLoop
  simp only [hs, hemp]
  rw [if_neg hge]

theorem ptaLoop_pop {st : AppState} {a : Int} (hs : st.setting.startTime = some a)
    (now : Int) (hge : ¬(now - a < st.setting.tourLengthSeconds))
    {hd : Person} (hhd : (waitingSorted st.persons).head? = some hd) (fuel : Nat) :
    ptaLoop now (fuel + 1) st =
      ptaLoop now fuel
        { persons := st.persons.map (popAtMap hd.id hd.position (a + st.setting.tourLengthSeconds)),
          setting := { st.setting with startTime :=
            (if (waitingSorted (st.persons.map
                (popAtMap hd.id hd.position (a + st.setting.tourLengthSeconds)))).isEmpty then none
              else some (a + st.setting.tourLengthSeconds)) } } := by
  conv_lhs => unfold ptaLoop
  simp only [hs, hhd]
  rw [if_neg hge]

/-- Marking the head of the waiting queue passed strictly decreases the
waiting count (no well-formedness assumptions needed). -/
theorem nW_popAt_lt {ps : List Person} {hd : Person} (hmem : hd ∈ ps)
    (hw : hd.status = Status.waiting) (fpos : Option Int) (t : Int) :
    nWaiting (ps.map (popAtMap hd.id fpos t)) < nWaiting ps := by
  rw [nW_map, nW_base ps]
  have hsplit := countP_split ps (fun p => decide (p.status = Status.waiting))
    (fun p => decide (p.id = hd.id))
  have hpos : 0 < ps.countP
      (fun p => decide (p.status = Status.waiting) && decide (p.id = hd.id)) := by
    rw [List.countP_pos_iff]
    exact ⟨hd, hmem, by simp [hw]⟩
  have hmono : ps.countP (fun p => decide ((popAtMap hd.id fpos t p).status = Status.waiting)) ≤
      ps.countP (fun p => decide (p.status = Status.waiting) && !(decide (p.id = hd.id))) := by
    apply List.countP_mono_left
    intro p _ hp
    simp only [decide_eq_true_eq] at hp
    unfold popAtMap at hp
    by_cases hid : p.id = hd.id
    · rw [if_pos hid] at hp
      simp at hp
    · rw [if_neg hid] at hp
      split_ifs at hp with hg
      · simp only [Bool.and_eq_true, beq_iff_eq] at hg
        simp [hg.1.1, hid]
      · simp [hp, hid]
  omega

theorem ptaLoop_setting_inv (now : Int) :
    ∀ (fuel : Nat) (st : AppState),
      (ptaLoop now fuel st).setting.timerPaused = st.setting.timerPaused ∧
      (ptaLoop now fuel st).setting.tourLengthSeconds = st.setting.tourLengthSeconds
  | 0, st => ⟨rfl, rfl⟩
  | fuel + 1, st => by
    cases hs : st.setting.startTime with
    | none => rw [ptaLoop_start_none hs]; exact ⟨rfl, rfl⟩
    | some a =>
      by_cases hlt : now - a < st.setting.tourLengthSeconds
      · rw [ptaLoop_break hs now hlt]; exact ⟨rfl, rfl⟩
      · cases hhd : (waitingSorted st.persons).head? with
        | none => rw [ptaLoop_empty hs now hlt hhd]; exact ⟨rfl, rfl⟩
        | some hd =>
          rw [ptaLoop_pop hs now hlt hhd]
          exact ptaLoop_setting_inv now fuel _

/-- With enough fuel, the loop always halts in a quiescent state: either
the anchor is cleared or less than one interval has elapsed since it. -/
theorem ptaLoop_post (now : Int) :
    ∀ (fuel : Nat) (st : AppState), nWaiting st.persons + 1 ≤ fuel →
      (ptaLoop now fuel st).setting.startTime = none ∨
      ∃ a, (ptaLoop now fuel st).setting.startTime = some a ∧
        now - a < (ptaLoop now fuel st).setting.tourLengthSeconds
  | 0, st, hfuel => absurd hfuel (by omega)
  | fuel + 1, st, hfuel => by
    cases hs : st.setting.startTime with
    | none => rw [ptaLoop_start_none hs]; exact Or.inl hs
    | some a =>
      by_cases hlt : now - a < st.setting.tourLengthSeconds
      · rw [ptaLoop_break hs now hlt]
        exact Or.inr ⟨a, hs, hlt⟩
      · cases hhd : (waitingSorted st.persons).head? with
        | none => rw [ptaLoop_empty hs now hlt hhd]; exact Or.inl rfl
        | some hd =>
          rw [ptaLoop_pop hs now hlt hhd]
          apply ptaLoop_post now fuel
          show nWaiting (st.persons.map
            (popAtMap hd.id hd.position (a + st.setting.tourLengthSeconds))) + 1 ≤ fuel
          obtain ⟨ys, hys⟩ := List.head?_eq_some_iff.mp hhd
          have hhdmem : hd ∈ waitingSorted st.persons := by
            rw [hys]; exact List.mem_cons_self hd ys
          obtain ⟨hin, hwst⟩ := mem_waitingSorted.mp hhdmem
          have := nW_popAt_lt hin hwst hd.position (a + st.setting.tourLengthSeconds)
          omega

theorem pta_guard_paused {st : AppState} (now : Int) (hp : st.setting.timerPaused = true) :
    process_timer_advances st now = st := by
  simp [process_timer_advances, hp]

theorem pta_guard_none {st : AppState} (now : Int) (hs : st.setting.startTime = none) :
    process_timer_advances st now = st := by
  simp [process_timer_advances, hs]

theorem pta_run {st : AppState} (now : Int) (hp : st.setting.timerPaused = false)
    {a : Int} (hs : st.setting.startTime = some a) :
    process_timer_advances st now = ptaLoop now (st.persons.length + 1) st := by
  simp [process_timer_advances, hp, hs]

theorem nWaiting_le_length (ps : List Person) : nWaiting ps ≤ ps.length :=
  List.length_filter_le _ ps

/-- C4: catch-up advance is idempotent — for every state and instant,
running `process_timer_advances` twice at the same wall-clock instant
yields exactly the state produced by running it once (same entry set and
same timer state). -/
theorem c4_pta_idempotent (st : AppState) (now : Int) :
    process_timer_advances (process_timer_advances st now) now =
      process_timer_advances st now := by
  by_cases hp : st.setting.timerPaused = true
  · rw [pta_guard_paused now hp, pta_guard_paused now hp]
  · have hp' : st.setting.timerPaused = false := by
      cases h : st.setting.timerPaused
      · rfl
      · exact absurd h hp
    cases hs : st.setting.startTime with
    | none => rw [pta_guard_none now hs, pta_guard_none now hs]
    | some a =>
      rw [pta_run now hp' hs]
      have hinv := ptaLoop_setting_inv now (st.persons.length + 1) st
      have hfuel : nWaiting st.persons + 1 ≤ st.persons.length + 1 := by
        have := nWaiting_le_length st.persons
        omega
      rcases ptaLoop_post now (st.persons.length + 1) st hfuel with h0 | ⟨a2, h2, hlt2⟩
      · exact pta_guard_none now h0
      · rw [pta_run now (by rw [hinv.1, hp']) h2]
        exact ptaLoop_break h2 now hlt2 _

/-! ### Clock projection (C6) and pause/resume (C7) -/

/-- The clock projection exactly as the specification words it
(section 4.1): if paused return the frozen snapshot, else null when no
anchor, else `max(0, intervalSeconds - secondsSince(anchorTime))`. -/
def remainingSeconds_spec (s : Setting) (now : Int) : Option Int :=
  if s.timerPaused then s.timeRemainingOnPause
  else
    match s.startTime with
    | none => none
    | some anchor => some (max 0 (s.tourLengthSeconds - (now - anchor)))

/-- C6: the code's `compute_time_remaining_seconds` is exactly the
specified pure clock projection: frozen snapshot when paused, null
without an anchor, and `max(0, interval - elapsed)` otherwise.  Being a
function of the timer state and the instant only, it mutates nothing. -/
theorem c6_clock_projection (s : Setting) (now : Int) :
    compute_time_remaining_seconds s now = remainingSeconds_spec s now := by
  unfold compute_time_remaining_seconds remainingSeconds_spec
  by_cases hp : s.timerPaused
  · rw [if_pos hp, if_pos hp]
  · rw [if_neg hp, if_neg hp]
    cases s.startTime with
    | none => rfl
    | some anchor =>
      simp only [Option.some.injEq]
      omega

/-- C7 counterexample: pausing does not clear the anchor.  On a running
state with `start_time = some 0`, `api_pause` sets the paused flag but
leaves `start_time` untouched, contradicting the claim's description of
pause as clearing the anchor (and invariant I4). -/
def cex7St : AppState :=
  { persons := [⟨1, "A", Status.waiting, some 1, 0, none⟩],
    setting := ⟨300, false, some 0, none⟩ }

/-- C7 (counterexample): pausing the running state `cex7St` at instant 5
yields `timerPaused = true` while `startTime` remains `some 0` — the
anchor is not cleared by pause, contrary to the claim's parenthetical. -/
theorem c7_counterexample :
    (api_pause cex7St 5).setting.timerPaused = true ∧
    (api_pause cex7St 5).setting.startTime = some 0 := by
  constructor <;> rfl

/-- C7 (amended): pause followed by resume is a round trip for the clock
projection.  For every running state with an anchor set, pausing at `now`
(which snapshots the remaining seconds and sets the paused flag but
leaves the anchor in place) and resuming at any `now2` (which back-dates
the anchor to `now2 - (interval - frozen)`) yields a state whose clock
projection at `now2` equals the projection at pause time — exactly, in
the integer-seconds model. -/
theorem c7_pause_resume_roundtrip (st : AppState) (now now2 : Int)
    (hp : st.setting.timerPaused = false) {a : Int}
    (hs : st.setting.startTime = some a) :
    compute_time_remaining_seconds (api_pause (api_pause st now) now2).setting now2 =
      compute_time_remaining_seconds st.setting now := by
  simp only [api_pause, compute_time_remaining_seconds, hp, hs]
  simp only [Bool.false_eq_true, if_false, if_true, Option.some.injEq]
  omega

/-! ### Interval length change (C9) -/

/-- C9 (amended): `api_set_tour_length` performs no positivity check.
Any integer `minutes` value is accepted and stored as `minutes * 60`, any
integer `seconds` value (with `minutes` absent) is stored as given —
including zero and negative values — and only a request carrying neither
field is rejected (with no successor state). -/
theorem c9_no_positivity_validation (st : AppState) (now : Int) :
    (∀ m : Int, ∀ sec : Option Int,
      api_set_tour_length st (some m) sec now =
        Except.ok (applyTourLength st (m * 60) now)) ∧
    (∀ v : Int, api_set_tour_length st none (some v) now =
        Except.ok (applyTourLength st v now)) ∧
    (∀ v : Int, (applyTourLength st v now).setting.tourLengthSeconds = v) ∧
    api_set_tour_length st none none now = Except.error "seconds or minutes required" := by
  refine ⟨fun m sec => rfl, fun v => rfl, fun v => ?_, rfl⟩
  simp only [applyTourLength]
  split_ifs <;> rfl

/-- C9 counterexample state: the default settings row. -/
def c9St : AppState :=
  { persons := [], setting := ⟨300, false, none, none⟩ }

/-- C9 (counterexample): a request with `seconds = -5` is not rejected —
it succeeds and stores the non-positive interval `-5`, so the claimed
validation of positivity does not exist and the state is changed. -/
theorem c9_counterexample :
    (api_set_tour_length c9St none (some (-5)) 3).isOk = true ∧
    (exceptState (api_set_tour_length c9St none (some (-5)) 3) c9St).setting.tourLengthSeconds
      = -5 := by
  constructor <;> rfl

/-! ### The paused/frozen-snapshot invariant (C5) -/

/-- The part of invariant I4 that the code actually preserves: the paused
flag is set exactly when the frozen remaining-time snapshot is present. -/
def I4w (s : Setting) : Prop :=
  s.timerPaused = s.timeRemainingOnPause.isSome

instance (s : Setting) : Decidable (I4w s) :=
  inferInstanceAs (Decidable (_ = _))

theorem ptaLoop_tr (now : Int) :
    ∀ (fuel : Nat) (st : AppState),
      (ptaLoop now fuel st).setting.timeRemainingOnPause = st.setting.timeRemainingOnPause ∨
      (ptaLoop now fuel st).setting.timeRemainingOnPause = none
  | 0, st => Or.inl rfl
  | fuel + 1, st => by
    cases hs : st.setting.startTime with
    | none => rw [ptaLoop_start_none hs]; exact Or.inl rfl
    | some a =>
      by_cases hlt : now - a < st.setting.tourLengthSeconds
      · rw [ptaLoop_break hs now hlt]; exact Or.inl rfl
      · cases hhd : (waitingSorted st.persons).head? with
        | none => rw [ptaLoop_empty hs now hlt hhd]; exact Or.inr rfl
        | some hd =>
          rw [ptaLoop_pop hs now hlt hhd]
          exact ptaLoop_tr now fuel _

theorem I4w_finishMove {ps : List Person} {s : Setting} (hw : I4w s) (now : Int) :
    I4w (finishMove ⟨ps, s⟩ now).setting := by
  by_cases hp : s.timerPaused = true
  · simp [finishMove, I4w, hp]
  · have hp1 : s.timerPaused = false := by
      revert hp
      cases s.timerPaused <;> simp
    rw [I4w, hp1] at hw
    cases hhd : (waitingSorted ps).head? <;>
      simp [finishMove, I4w, hp1, hhd, ← hw]

theorem bool_eq_false_of_ne_true {b : Bool} (h : ¬(b = true)) : b = false := by
  revert h
  cases b <;> simp

theorem I4w_tr_none {s : Setting} (hp : s.timerPaused = false) (h : I4w s) :
    s.timeRemainingOnPause = none := by
  rw [I4w, hp] at h
  cases htr : s.timeRemainingOnPause with
  | none => rfl
  | some r => rw [htr] at h; simp at h

/-- C5 (amended): what every operation preserves is the weakened form of
I4 in which only the frozen-snapshot clause survives: `paused = true` iff
`frozenRemainingSeconds` is set.  The anchor-related clauses of I4 are
not preserved by the code: `advance_next` while paused sets
`anchorTime = now` when entries remain waiting, `api_set_tour_length`
while running sets `anchorTime = now` even with an empty queue, and pause
leaves the anchor in place. -/
theorem c5_i4_weak_preserved (st : AppState) (hI4 : I4w st.setting)
    (nm : String) (newId : Nat) (now : Int) (ids : List Nat)
    (pid : Nat) (tst : String) (tpos : Option Int) (mins secs : Option Int) :
    I4w (add_person st nm newId now).1.setting ∧
    I4w (process_timer_advances st now).setting ∧
    I4w (advance_next st now).1.setting ∧
    I4w (go_back st now).1.setting ∧
    (∀ st', reorder_waiting st ids now = Except.ok st' → I4w st'.setting) ∧
    (∀ st', move_person_to st pid tst tpos now = Except.ok st' → I4w st'.setting) ∧
    I4w (api_pause st now).setting ∧
    (∀ st', api_set_tour_length st mins secs now = Except.ok st' → I4w st'.setting) := by
  have happly : ∀ v, I4w (applyTourLength st v now).setting := by
    intro v
    by_cases hp : st.setting.timerPaused = true
    · simp [applyTourLength, I4w, hp]
    · have hp1 := bool_eq_false_of_ne_true hp
      simp [applyTourLength, I4w, hp1, I4w_tr_none hp1 hI4]
  refine ⟨?_, ?_, ?_, ?_, ?_, ?_, ?_, ?_⟩
  · -- add_person
    rcases hst : st.setting.startTime with _ | a <;>
      rcases hpp : st.setting.timerPaused with _ | _ <;>
        rcases htr : st.setting.timeRemainingOnPause with _ | r <;>
          simp_all [add_person, I4w]
  · -- process_timer_advances
    by_cases hp : st.setting.timerPaused = true
    · rw [pta_guard_paused now hp]; exact hI4
    · have hp1 := bool_eq_false_of_ne_true hp
      cases hst : st.setting.startTime with
      | none => rw [pta_guard_none now hst]; exact hI4
      | some a =>
        rw [pta_run now hp1 hst]
        have hinv := ptaLoop_setting_inv now (st.persons.length + 1) st
        have htrn := I4w_tr_none hp1 hI4
        unfold I4w
        rw [hinv.1, hp1]
        rcases ptaLoop_tr now (st.persons.length + 1) st with h | h <;> rw [h]
        · rw [htrn]; rfl
        · rfl
  · -- advance_next
    cases hhd : (waitingSorted st.persons).head? with
    | none => simp only [advance_next, hhd]; exact hI4
    | some first =>
      by_cases hp : st.setting.timerPaused = true
      · simp [advance_next, hhd, hp, I4w]
      · have hp1 := bool_eq_false_of_ne_true hp
        simp [advance_next, hhd, hp1, I4w, I4w_tr_none hp1 hI4]
  · -- go_back
    cases hhd : (passedSorted st.persons).head? with
    | none => simp only [go_back, hhd]; exact hI4
    | some lastPassed =>
      by_cases hp : st.setting.timerPaused = true
      · simp [go_back, hhd, hp, I4w]
      · have hp1 := bool_eq_false_of_ne_true hp
        simp [go_back, hhd, hp1, I4w, I4w_tr_none hp1 hI4]
  · -- reorder_waiting
    intro st' h
    simp only [reorder_waiting] at h
    by_cases hv : (ids.all fun i => (waitingIds st.persons).contains i) = true
    · rw [if_pos hv] at h
      injection h with h2
      subst h2
      by_cases hp : st.setting.timerPaused = true
      · simp [hp, I4w]
      · have hp1 := bool_eq_false_of_ne_true hp
        simp [hp1, I4w, I4w_tr_none hp1 hI4]
    · rw [if_neg hv] at h
      exact absurd h (by simp)
  · -- move_person_to
    intro st' h
    unfold move_person_to at h
    cases hfind : st.persons.find? (fun p => p.id == pid) with
    | none =>
      simp only [hfind] at h
      exact absurd h (by simp)
    | some p =>
      simp only [hfind] at h
      by_cases h1 : tst = "waiting"
      · rw [if_pos h1] at h
        by_cases h2 : (p.status == Status.passed) = true
        · rw [if_pos h2] at h
          injection h with h3
          subst h3
          exact I4w_finishMove hI4 now
        · rw [if_neg h2] at h
          cases htp : tpos with
          | none =>
            simp only [htp] at h
            injection h with h3
            subst h3
            exact hI4
          | some tp =>
            simp only [htp] at h
            split_ifs at h with h4
            · injection h with h3
              subst h3
              exact hI4
            · injection h with h3
              subst h3
              exact I4w_finishMove hI4 now
            · injection h with h3
              subst h3
              exact I4w_finishMove hI4 now
      · rw [if_neg h1] at h
        by_cases h5 : tst = "passed"
        · rw [if_pos h5] at h
          injection h with h3
          subst h3
          exact I4w_finishMove hI4 now
        · rw [if_neg h5] at h
          exact absurd h (by simp)
  · -- api_pause
    by_cases hp : st.setting.timerPaused = true
    · simp [api_pause, I4w, hp]
    · have hp1 := bool_eq_false_of_ne_true hp
      simp [api_pause, I4w, hp1]
  · -- api_set_tour_length
    intro st' h
    cases mins with
    | some m =>
      injection h with h3
      subst h3
      exact happly _
    | none =>
      cases secs with
      | some v =>
        injection h with h3
        subst h3
        exact happly _
      | none => exact absurd h (by simp [api_set_tour_length])

/-- C5 counterexample state: a legitimately paused I4 state (paused,
anchor null, frozen snapshot set) with two waiting entries. -/
def c5St : AppState :=
  { persons := [⟨1, "A", Status.waiting, some 1, 0, none⟩,
      ⟨2, "B", Status.waiting, some 2, 0, none⟩],
    setting := ⟨300, true, none, some 44⟩ }

/-- C5 (counterexample): `advance_next` on the paused state `c5St`
leaves the timer paused yet sets `startTime = some 7`, so after a
successful operation `paused = true` no longer implies a null anchor —
I4 as claimed is not preserved. -/
theorem c5_counterexample :
    (advance_next c5St 7).1.setting.timerPaused = true ∧
    (advance_next c5St 7).1.setting.startTime = some 7 := by
  constructor <;> rfl

/-! ### Exact characterization of k catch-up steps (C3) -/

/-- The cumulative effect of `k` pop steps on a single row of an I1
state whose anchor was `a`: the rows at positions `1..k` become passed
with `passedAt = a + position * L`, and the remaining waiting rows shift
down by `k`. -/
def popKmap (k : Nat) (a L : Int) (p : Person) : Person :=
  if p.status == Status.waiting then
    match p.position with
    | some j =>
      if j ≤ (k : Int) then
        { p with status := Status.passed, position := none, passedAt := some (a + j * L) }
      else { p with position := some (j - (k : Int)) }
    | none => p
  else p

theorem popK_compose (k : Nat) (a L : Int) (p : Person) :
    popKmap k (a + L) L (popKmap 1 a L p) = popKmap (k + 1) a L p := by
  by_cases hw : p.status = Status.waiting
  · cases hj : p.position with
    | none => simp [popKmap, hw, hj]
    | some j =>
      by_cases h1 : j ≤ (1 : Int)
      · have hjk : j ≤ (k : Int) + 1 := by omega
        simp [popKmap, hw, hj, h1, hjk]
      · by_cases h2 : j - 1 ≤ (k : Int)
        · have hjk : j ≤ (k : Int) + 1 := by omega
          simp [popKmap, hw, hj, h1, h2, hjk]
          ring
        · have hjk : ¬(j ≤ (k : Int) + 1) := by omega
          simp [popKmap, hw, hj, h1, h2, hjk]
          push_cast
          ring
  · simp [popKmap, hw]

/-- On an I1 state with distinct ids whose head (position-1 row) is `hd`,
one pop step at anchor `a` acts like `popKmap 1 a L`. -/
theorem popAt_eq_popK1 {ps : List Person} (hI1 : I1 ps) (hnd : NodupIds ps)
    {hd : Person} (hdmem : hd ∈ ps) (hdw : hd.status = Status.waiting)
    (hdpos : hd.position = some 1) (a L : Int) :
    ps.map (popAtMap hd.id hd.position (a + L)) = ps.map (popKmap 1 a L) := by
  apply List.map_congr_left
  intro p hp
  by_cases hid : p.id = hd.id
  · have hpe : p = hd := id_inj hnd hp hdmem hid
    subst hpe
    simp [popAtMap, popKmap, hdw, hdpos]
  · by_cases hst : p.status = Status.waiting
    · obtain ⟨j, hj, h1j, hjN⟩ := waiting_pos_bounds hI1 hp hst
      have hjne : j ≠ 1 := by
        intro h
        exact hid (congrArg Person.id
          (waiting_pos_unique hI1 hp hst (h ▸ hj) hdmem hdw hdpos))
      have hj2 : 1 < j := by omega
      have hj0 : j ≠ 0 := by omega
      have hjle : ¬(j ≤ (1 : Int)) := by omega
      simp [popAtMap, popKmap, hid, hst, hj, posTruthy, ogtB, hdpos, hj0, hj2, hjle]
    · have hpass : p.status = Status.passed := by
        cases hs2 : p.status
        · exact absurd hs2 hst
        · rfl
      simp [popAtMap, popKmap, hid, hpass]

/-- Running the catch-up loop on an I1 state that is `k` full intervals
(and less than `k + 1`) past its anchor pops exactly the first `k` rows
with the scheduled `passedAt` stamps and advances the anchor by exactly
`k` intervals (clearing it when the queue empties). -/
theorem ptaLoop_runs (now : Int) :
    ∀ (k : Nat) (ps : List Person) (s : Setting) (a : Int) (fuel : Nat),
      I1 ps → NodupIds ps → s.timerPaused = false → s.startTime = some a →
      1 ≤ k → k ≤ nWaiting ps →
      (k : Int) * s.tourLengthSeconds ≤ now - a →
      now - a < ((k : Int) + 1) * s.tourLengthSeconds →
      k ≤ fuel →
      ptaLoop now fuel ⟨ps, s⟩ =
        ⟨ps.map (popKmap k a s.tourLengthSeconds),
          { s with startTime :=
            (if (k : Int) < (nWaiting ps : Int) then
              some (a + (k : Int) * s.tourLengthSeconds) else none) }⟩
  | 0, ps, s, a, fuel, hI1, hnd, hp, hs, h1, hkN, hlo, hhi, hfuel => absurd h1 (by omega)
  | k + 1, ps, s, a, fuel, hI1, hnd, hp, hs, h1, hkN, hlo, hhi, hfuel => by
    have he1 : ((k + 1 : Nat) : Int) * s.tourLengthSeconds =
        (k : Int) * s.tourLengthSeconds + s.tourLengthSeconds := by push_cast; ring
    have he2 : (((k + 1 : Nat) : Int) + 1) * s.tourLengthSeconds =
        (k : Int) * s.tourLengthSeconds + 2 * s.tourLengthSeconds := by push_cast; ring
    rw [he1] at hlo
    rw [he2] at hhi
    have hL : 0 < s.tourLengthSeconds := by linarith
    have hkL : 0 ≤ (k : Int) * s.tourLengthSeconds :=
      mul_nonneg (by positivity) hL.le
    have hge : ¬(now - a < s.tourLengthSeconds) := by
      push_neg
      linarith
    cases fuel with
    | zero => exact absurd hfuel (by omega)
    | succ fuel2 =>
      have hN1 : 1 ≤ nWaiting ps := le_trans (by omega) hkN
      obtain ⟨hd, hhd, hdmem, hdw, hdpos⟩ := head_waitingSorted hI1 hN1
      rw [ptaLoop_pop hs now hge hhd fuel2]
      have hmap := popAt_eq_popK1 hI1 hnd hdmem hdw hdpos a s.tourLengthSeconds
      obtain ⟨hnw, hI1a⟩ := popAt_I1 hI1 hnd hdmem hdw (a + s.tourLengthSeconds)
      have hnda := nodupIds_map _ (popAtMap_id hd.id hd.position
        (a + s.tourLengthSeconds)) hnd
      rw [hmap] at hnw hI1a hnda ⊢
      have hNsum : nWaiting ps = nWaiting (ps.map (popKmap 1 a s.tourLengthSeconds)) + 1 := by
        omega
      cases k with
      | zero =>
        -- exactly one pop: the loop halts right after it
        by_cases hone : nWaiting ps = 1
        · have hempt : (waitingSorted (ps.map (popKmap 1 a s.tourLengthSeconds))).isEmpty
              = true := by
            rw [List.isEmpty_iff, waitingSorted_eq_nil_iff]
            omega
          rw [if_pos hempt]
          rw [ptaLoop_start_none rfl]
          have hcond : ¬(((0 + 1 : Nat) : Int) < (nWaiting ps : Int)) := by
            omega
          rw [if_neg hcond]
        · have hnempt : ¬((waitingSorted (ps.map (popKmap 1 a s.tourLengthSeconds))).isEmpty
              = true) := by
            rw [List.isEmpty_iff, waitingSorted_eq_nil_iff]
            omega
          rw [if_neg hnempt]
          rw [ptaLoop_break rfl now (by
            show now - (a + s.tourLengthSeconds) < s.tourLengthSeconds
            push_cast at hhi
            linarith)]
          have hcond : ((0 + 1 : Nat) : Int) < (nWaiting ps : Int) := by
            omega
          rw [if_pos hcond]
          have hval : a + ((0 + 1 : Nat) : Int) * s.tourLengthSeconds =
              a + s.tourLengthSeconds := by push_cast; ring
          rw [hval]
      | succ k2 =>
        -- at least two pops: recurse on the remaining k2 + 1
        have hnempt : ¬((waitingSorted (ps.map (popKmap 1 a s.tourLengthSeconds))).isEmpty
            = true) := by
          rw [List.isEmpty_iff, waitingSorted_eq_nil_iff]
          omega
        rw [if_neg hnempt]
        have hihlo : ((k2 + 1 : Nat) : Int) * s.tourLengthSeconds ≤
            now - (a + s.tourLengthSeconds) := by
          push_cast at hlo ⊢
          linarith
        have hihhi : now - (a + s.tourLengthSeconds) <
            (((k2 + 1 : Nat) : Int) + 1) * s.tourLengthSeconds := by
          push_cast at hhi ⊢
          linarith
        rw [ptaLoop_runs now (k2 + 1) (ps.map (popKmap 1 a s.tourLengthSeconds))
          { s with startTime := some (a + s.tourLengthSeconds) } (a + s.tourLengthSeconds)
          fuel2 hI1a hnda hp rfl (by omega) (by omega) hihlo hihhi (by omega)]
        congr 1
        · rw [List.map_map]
          apply List.map_congr_left
          intro p _
          exact popK_compose (k2 + 1) a s.tourLengthSeconds p
        · congr 1
          by_cases hc : k2 + 1 < nWaiting (ps.map (popKmap 1 a s.tourLengthSeconds))
          · have hc1 : ((k2 + 1 : Nat) : Int) <
                (nWaiting (ps.map (popKmap 1 a s.tourLengthSeconds)) : Int) := by
              exact_mod_cast hc
            have hc2 : ((k2 + 1 + 1 : Nat) : Int) < (nWaiting ps : Int) := by
              exact_mod_cast (by omega : k2 + 1 + 1 < nWaiting ps)
            rw [if_pos hc1, if_pos hc2]
            congr 1
            push_cast
            ring
          · have hc1 : ¬(((k2 + 1 : Nat) : Int) <
                (nWaiting (ps.map (popKmap 1 a s.tourLengthSeconds)) : Int)) := by
              exact_mod_cast hc
            have hc2 : ¬(((k2 + 1 + 1 : Nat) : Int) < (nWaiting ps : Int)) := by
              exact_mod_cast (by omega : ¬(k2 + 1 + 1 < nWaiting ps))
            rw [if_neg hc1, if_neg hc2]

/-- C3: on a running I1 state with distinct ids, anchor `a`, at least `k`
waiting entries, and elapsed time in `[k*L, (k+1)*L)` for some `k ≥ 1`,
one call to `process_timer_advances` transitions exactly the first `k`
waiting entries to passed, stamping the entry at position `i` with
`passedAt = a + i*L` (the scheduled interval end, not wall-clock now),
shifts the remaining waiting entries down by `k`, and leaves the anchor
at exactly `a + k*L` when entries remain waiting (clearing it when the
queue has emptied). -/
theorem c3_catchup_exact (st : AppState) (now a : Int) (k : Nat)
    (hI1 : I1 st.persons) (hnd : NodupIds st.persons)
    (hp : st.setting.timerPaused = false) (hs : st.setting.startTime = some a)
    (h1 : 1 ≤ k) (hkN : k ≤ nWaiting st.persons)
    (hlo : (k : Int) * st.setting.tourLengthSeconds ≤ now - a)
    (hhi : now - a < ((k : Int) + 1) * st.setting.tourLengthSeconds) :
    process_timer_advances st now =
      ⟨st.persons.map (popKmap k a st.setting.tourLengthSeconds),
        { st.setting with startTime :=
          (if (k : Int) < (nWaiting st.persons : Int) then
            some (a + (k : Int) * st.setting.tourLengthSeconds) else none) }⟩ := by
  rw [pta_run now hp hs]
  have hfuel : k ≤ st.persons.length + 1 :=
    le_trans hkN (le_trans (nWaiting_le_length _) (by omega))
  exact ptaLoop_runs now k st.persons st.setting a (st.persons.length + 1)
    hI1 hnd hp hs h1 hkN hlo hhi hfuel

/-- A running two-entry I1 state with interval 10 and anchor 0, used as a
concrete witness input. -/
def cst3 : AppState :=
  { persons := [⟨1, "A", Status.waiting, some 1, 0, none⟩,
      ⟨2, "B", Status.waiting, some 2, 0, none⟩],
    setting := ⟨10, false, some 0, none⟩ }

/-- Witness for C3: on `cst3` at instant 10 (one full interval elapsed,
`k = 1`), the catch-up advance produces exactly the `popKmap`-described
state. -/
theorem c3_witness :
    process_timer_advances cst3 10 =
      ⟨cst3.persons.map (popKmap 1 0 cst3.setting.tourLengthSeconds),
        { cst3.setting with startTime :=
          (if ((1 : Nat) : Int) < (nWaiting cst3.persons : Int) then
            some (0 + ((1 : Nat) : Int) * cst3.setting.tourLengthSeconds) else none) }⟩ :=
  c3_catchup_exact cst3 10 0 1 (by decide) (by decide) rfl rfl (by decide) (by decide)
    (by decide) (by decide)

/-- Witness for C7: pausing `cex7St` at instant 5 and resuming at
instant 9 restores the projection exactly. -/
theorem c7_witness :
    compute_time_remaining_seconds (api_pause (api_pause cex7St 5) 9).setting 9 =
      compute_time_remaining_seconds cex7St.setting 5 :=
  c7_pause_resume_roundtrip cex7St 5 9 rfl rfl

/-- Witness for C5: the weakened invariant is preserved by every
operation when starting from the concrete running state `cex7St`. -/
theorem c5_witness :
    I4w (add_person cex7St "X" 9 3).1.setting ∧
    I4w (process_timer_advances cex7St 3).setting ∧
    I4w (advance_next cex7St 3).1.setting ∧
    I4w (go_back cex7St 3).1.setting ∧
    (∀ st', reorder_waiting cex7St [1] 3 = Except.ok st' → I4w st'.setting) ∧
    (∀ st', move_person_to cex7St 1 "passed" none 3 = Except.ok st' → I4w st'.setting) ∧
    I4w (api_pause cex7St 3).setting ∧
    (∀ st', api_set_tour_length cex7St none (some 60) 3 = Except.ok st' → I4w st'.setting) :=
  c5_i4_weak_preserved cex7St (by decide) "X" 9 3 [1] 1 "passed" none none (some 60)

/-! ### Moving an already-passed entry to passed (C10) -/

theorem find?_id_eq {ps : List Person} (hnd : NodupIds ps) {p0 : Person}
    (h0 : p0 ∈ ps) : ps.find? (fun p => p.id == p0.id) = some p0 := by
  have hsome : (ps.find? (fun p => p.id == p0.id)).isSome := by
    rw [List.find?_isSome]
    exact ⟨p0, h0, by simp⟩
  cases hfind : ps.find? (fun p => p.id == p0.id) with
  | none => rw [hfind] at hsome; simp at hsome
  | some q =>
    have hq1 := List.find?_some hfind
    have hq2 : q ∈ ps := List.mem_of_find?_eq_some hfind
    simp only [beq_iff_eq] at hq1
    rw [id_inj hnd hq2 h0 hq1]

/-- The waiting count is untouched by re-stamping an already-passed row. -/
theorem nW_restamp {ps : List Person} (hnd : NodupIds ps) {p0 : Person}
    (h0 : p0 ∈ ps) (hst : p0.status = Status.passed) (now : Int) :
    nWaiting (ps.map (fun q =>
      if q.id = p0.id then { q with status := Status.passed, passedAt := some now } else q)) =
      nWaiting ps := by
  rw [nW_map, nW_base]
  apply List.countP_congr
  intro p hp
  by_cases hid : p.id = p0.id
  · have hpe : p = p0 := id_inj hnd hp h0 hid
    subst hpe
    simp [hid, hst]
  · simp [hid]

/-- C10: on a running state with a non-empty waiting queue, a successful
`move_person_to(id, 'passed')` on an entry `p0` that is already passed
refreshes `p0.passedAt` to now AND resets the anchor to now — restarting
the current head's interval — even though no waiting entry's position and
no status other than the re-stamp changed. -/
theorem c10_move_passed_resets_anchor (st : AppState) (now : Int) (tpos : Option Int)
    (hnd : NodupIds st.persons) (p0 : Person) (h0 : p0 ∈ st.persons)
    (hst : p0.status = Status.passed) (hp : st.setting.timerPaused = false)
    (hN : nWaiting st.persons ≠ 0) :
    move_person_to st p0.id "passed" tpos now =
      Except.ok ⟨st.persons.map (fun q =>
          if q.id = p0.id then { q with status := Status.passed, passedAt := some now } else q),
        { st.setting with startTime := some now }⟩ := by
  have hfind := find?_id_eq hnd h0
  have hb : (p0.status == Status.waiting) = false := by rw [hst]; rfl
  have hnw := nW_restamp hnd h0 hst now
  unfold move_person_to
  simp only [hfind]
  rw [if_neg (show ¬("passed" = "waiting") by decide), if_pos trivial]
  simp only [hb, Bool.false_eq_true, if_false]
  cases hhd : (waitingSorted (st.persons.map (fun q =>
      if q.id = p0.id then { q with status := Status.passed, passedAt := some now } else q))).head? with
  | none =>
    rw [waitingSorted_head?_eq_none_iff] at hhd
    omega
  | some w =>
    unfold finishMove
    simp only [hp, Bool.not_false, if_true, hhd]

/-- Concrete state for C10: one waiting entry and one passed entry,
running with anchor 0. -/
def cst10 : AppState :=
  { persons := [⟨1, "A", Status.waiting, some 1, 0, none⟩,
      ⟨9, "P", Status.passed, none, 0, some (-4)⟩],
    setting := ⟨300, false, some 0, none⟩ }

/-- Witness for C10: moving the passed entry 9 to passed at instant 11
re-stamps it and resets the anchor to 11. -/
theorem c10_witness :
    move_person_to cst10 9 "passed" none 11 =
      Except.ok ⟨cst10.persons.map (fun q =>
          if q.id = 9 then { q with status := Status.passed, passedAt := some 11 } else q),
        { cst10.setting with startTime := some 11 }⟩ :=
  c10_move_passed_resets_anchor cst10 11 none (by decide)
    ⟨9, "P", Status.passed, none, 0, some (-4)⟩ (by decide) rfl rfl (by decide)

/-! ### Reorder validation (C2) -/

/-- C2 (amended): `reorder_waiting` succeeds if and only if every given
id belongs to a currently waiting entry.  An id of a non-waiting or
unknown entry raises the validation error, and — the model returning no
successor state on error, matching the source where the raise precedes
every write — leaves the state unchanged.  Missing waiting ids (proper
subsets) and duplicated ids are NOT rejected: the membership check is
one-directional, so any sequence over the waiting ids is applied. -/
theorem c2_reorder_validation (st : AppState) (ids : List Nat) (now : Int) :
    ((∃ i ∈ ids, i ∉ waitingIds st.persons) →
      reorder_waiting st ids now = Except.error "Invalid id in reorder") ∧
    ((∀ i ∈ ids, i ∈ waitingIds st.persons) →
      reorder_waiting st ids now = Except.ok ⟨applyOrder ids 1 st.persons,
        (if (!st.setting.timerPaused) = true then
          { st.setting with startTime := some now }
        else
          { st.setting with timeRemainingOnPause := some st.setting.tourLengthSeconds })⟩) := by
  constructor
  · rintro ⟨i, hi, hni⟩
    unfold reorder_waiting
    rw [if_neg]
    intro hall
    rw [List.all_eq_true] at hall
    have := hall i hi
    simp only [List.contains_iff_exists_mem_beq, beq_iff_eq] at this
    obtain ⟨j, hj, hij⟩ := this
    exact hni (hij ▸ hj)
  · intro hall
    unfold reorder_waiting
    rw [if_pos]
    rw [List.all_eq_true]
    intro i hi
    simp only [List.contains_iff_exists_mem_beq, beq_iff_eq]
    exact ⟨i, hall i hi, rfl⟩

/-- C2 (counterexample): on the I1 state `cst3` whose waiting ids are
`[1, 2]`, the proper subset `[2]` (missing waiting id 1) is accepted by
`reorder_waiting` instead of raising the claimed validation error. -/
theorem c2_counterexample :
    (reorder_waiting cst3 [2] 0).isOk = true ∧
    (1 : Nat) ∈ waitingIds cst3.persons ∧ (1 : Nat) ∉ [2] := by
  refine ⟨rfl, by decide, by decide⟩

/-- Witness for C2: a foreign id (3) is rejected on `cst3`, and the full
permutation `[2, 1]` is accepted with the positions assigned in order. -/
theorem c2_witness :
    reorder_waiting cst3 [3] 0 = Except.error "Invalid id in reorder" ∧
    reorder_waiting cst3 [2, 1] 0 = Except.ok ⟨applyOrder [2, 1] 1 cst3.persons,
      (if (!cst3.setting.timerPaused) = true then
        { cst3.setting with startTime := some 0 }
      else
        { cst3.setting with timeRemainingOnPause := some cst3.setting.tourLengthSeconds })⟩ :=
  ⟨(c2_reorder_validation cst3 [3] 0).1 ⟨3, by decide, by decide⟩,
    (c2_reorder_validation cst3 [2, 1] 0).2 (by decide)⟩

/-! ### Advance followed by undo (C8) -/

theorem popAtMap_status_of_ne {fid : Nat} {fpos : Option Int} {t : Int} {p : Person}
    (hid : ¬(p.id = fid)) : (popAtMap fid fpos t p).status = p.status := by
  unfold popAtMap
  rw [if_neg hid]
  split_ifs <;> rfl

theorem popAtMap_of_passed {fid : Nat} {fpos : Option Int} {t : Int} {p : Person}
    (hid : ¬(p.id = fid)) (hst : p.status = Status.passed) :
    popAtMap fid fpos t p = p := by
  unfold popAtMap
  rw [if_neg hid, if_neg (by simp [hst])]

/-- C8: for every well-formed state (I1, distinct ids) with a non-empty
waiting queue whose previously passed entries were all stamped strictly
before `now`, `advance_next` at `now` followed immediately by `go_back`
restores every entry's id, status, and waiting position: the old head
returns to position 1 and every other waiting entry returns to its
pre-advance position. -/
theorem c8_advance_undo_roundtrip (st : AppState) (now now2 : Int)
    (hI1 : I1 st.persons) (hnd : NodupIds st.persons) (hN : 1 ≤ nWaiting st.persons)
    (hfresh : ∀ p ∈ st.persons, p.status = Status.passed →
      ∀ t, p.passedAt = some t → t < now) :
    (go_back (advance_next st now).1 now2).1.persons.map
        (fun p => (p.id, p.status, p.position)) =
      st.persons.map (fun p => (p.id, p.status, p.position)) := by
  obtain ⟨hd, hhd, hdmem, hdw, hdpos⟩ := head_waitingSorted hI1 hN
  have hd1eq : popAtMap hd.id hd.position now hd =
      { hd with status := Status.passed, passedAt := some now, position := none } := by
    unfold popAtMap
    rw [if_pos rfl]
  unfold advance_next
  simp only [hhd]
  have hmax : ∀ q ∈ st.persons.map (popAtMap hd.id hd.position now),
      q.status = Status.passed → q ≠ popAtMap hd.id hd.position now hd →
      q.passedAt = none ∨ ∃ t, q.passedAt = some t ∧ t < now := by
    intro q hq hqs hqne
    obtain ⟨p, hp, hpq⟩ := List.mem_map.mp hq
    by_cases hid : p.id = hd.id
    · exact absurd (by rw [← hpq, id_inj hnd hp hdmem hid]) hqne
    · by_cases hw2 : p.status = Status.waiting
      · exfalso
        rw [← hpq] at hqs
        rw [popAtMap_status_of_ne hid, hw2] at hqs
        exact absurd hqs (by simp)
      · have hpass : p.status = Status.passed := by
          cases hs2 : p.status
          · exact absurd hs2 hw2
          · rfl
        rw [← hpq, popAtMap_of_passed hid hpass]
        cases hpa : p.passedAt with
        | none => exact Or.inl rfl
        | some t => exact Or.inr ⟨t, rfl, hfresh p hp hpass t hpa⟩
  have hlp : (passedSorted (st.persons.map (popAtMap hd.id hd.position now))).head? =
      some (popAtMap hd.id hd.position now hd) := by
    apply @head_passedSorted (st.persons.map (popAtMap hd.id hd.position now))
      (popAtMap hd.id hd.position now hd) now
    · exact List.mem_map.mpr ⟨hd, hdmem, rfl⟩
    · rw [hd1eq]
    · rw [hd1eq]
    · exact hmax
  unfold go_back
  simp only [hlp]
  rw [List.map_map, List.map_map, List.map_map]
  apply List.map_congr_left
  intro p hp
  simp only [Function.comp]
  by_cases hid : p.id = hd.id
  · have hpe : p = hd := id_inj hnd hp hdmem hid
    subst hpe
    rw [hd1eq]
    simp [goBackShift, goBackInsert, hdw, hdpos]
  · by_cases hw2 : p.status = Status.waiting
    · obtain ⟨j, hj, h1j, hjN⟩ := waiting_pos_bounds hI1 hp hw2
      have hjne : j ≠ 1 := by
        intro h
        exact hid (congrArg Person.id
          (waiting_pos_unique hI1 hp hw2 (h ▸ hj) hdmem hdw hdpos))
      have hj0 : j ≠ 0 := by omega
      have hj2 : 1 < j := by omega
      have hshift : popAtMap hd.id hd.position now p = { p with position := some (j - 1) } := by
        unfold popAtMap
        rw [if_neg hid, if_pos (by
          rw [hw2, hj, hdpos]
          simp [posTruthy, ogtB, hj0, hj2]), hj]
        rfl
      rw [hshift]
      have hidne : ¬(p.id = (popAtMap hd.id hd.position now hd).id) := by
        rw [hd1eq]
        exact hid
      simp [goBackShift, goBackInsert, hw2, hj, hidne] <;> omega
    · have hpass : p.status = Status.passed := by
        cases hs2 : p.status
        · exact absurd hs2 hw2
        · rfl
      rw [popAtMap_of_passed hid hpass]
      have hidne : ¬(p.id = (popAtMap hd.id hd.position now hd).id) := by
        rw [hd1eq]
        exact hid
      simp [goBackShift, goBackInsert, hpass, hidne]

/-! ### I1 preservation, operation by operation (C1) -/

theorem add_maxPos_eq {ps : List Person} (hI1 : I1 ps) :
    add_maxPos (waitingSorted ps) = (nWaiting ps : Int) := by
  by_cases hN : nWaiting ps = 0
  · have hnil : waitingSorted ps = [] := waitingSorted_eq_nil_iff.mpr hN
    unfold add_maxPos
    rw [hnil]
    simp [hN]
  · obtain ⟨lastp, hlast, hin, hwst, hpos⟩ := getLast_waitingSorted hI1 (by omega)
    unfold add_maxPos
    simp only [hlast, hpos]
    rw [if_neg (by exact_mod_cast hN)]

theorem I1_append_next {ps : List Person} (hI1 : I1 ps) (newp : Person)
    (hst : newp.status = Status.waiting)
    (hpos : newp.position = some ((nWaiting ps : Int) + 1)) :
    I1 (ps ++ [newp]) := by
  have hw : waitingList (ps ++ [newp]) = waitingList ps ++ [newp] := by
    unfold waitingList
    rw [List.filter_append]
    congr 1
    simp [hst]
  have hwp : wPositions (ps ++ [newp]) =
      wPositions ps ++ [some ((nWaiting ps : Int) + 1)] := by
    unfold wPositions
    rw [hw, List.map_append]
    simp [hpos]
  have hnw : nWaiting (ps ++ [newp]) = nWaiting ps + 1 := by
    unfold nWaiting
    rw [hw, List.length_append]
    rfl
  have htarget : posTarget (nWaiting ps + 1) =
      posTarget (nWaiting ps) ++ [some ((nWaiting ps : Int) + 1)] := by
    simp [posTarget, List.range_succ]
  unfold I1
  rw [hwp, hnw, htarget]
  exact List.Perm.append_right _ hI1

theorem add_person_I1 (st : AppState) (hI1 : I1 st.persons)
    (nm : String) (newId : Nat) (now : Int) :
    I1 (add_person st nm newId now).1.persons := by
  show I1 (st.persons ++
    [⟨newId, nm, Status.waiting, some (add_maxPos (waitingSorted st.persons) + 1), now, none⟩])
  rw [add_maxPos_eq hI1]
  exact I1_append_next hI1 _ rfl rfl

theorem advance_next_I1 (st : AppState) (hI1 : I1 st.persons) (hnd : NodupIds st.persons)
    (now : Int) : I1 (advance_next st now).1.persons := by
  cases hhd : (waitingSorted st.persons).head? with
  | none =>
    unfold advance_next
    rw [hhd]
    exact hI1
  | some first =>
    obtain ⟨ys, hys⟩ := List.head?_eq_some_iff.mp hhd
    have hmem : first ∈ waitingSorted st.persons := by
      rw [hys]; exact List.mem_cons_self first ys
    obtain ⟨hin, hwst⟩ := mem_waitingSorted.mp hmem
    unfold advance_next
    rw [hhd]
    exact (popAt_I1 hI1 hnd hin hwst now).2

theorem ptaLoop_I1 (now : Int) :
    ∀ (fuel : Nat) (st : AppState), I1 st.persons → NodupIds st.persons →
      I1 (ptaLoop now fuel st).persons ∧ NodupIds (ptaLoop now fuel st).persons
  | 0, st, hI1, hnd => ⟨hI1, hnd⟩
  | fuel + 1, st, hI1, hnd => by
    cases hs : st.setting.startTime with
    | none => rw [ptaLoop_start_none hs]; exact ⟨hI1, hnd⟩
    | some a =>
      by_cases hlt : now - a < st.setting.tourLengthSeconds
      · rw [ptaLoop_break hs now hlt]; exact ⟨hI1, hnd⟩
      · cases hhd : (waitingSorted st.persons).head? with
        | none => rw [ptaLoop_empty hs now hlt hhd]; exact ⟨hI1, hnd⟩
        | some hd =>
          rw [ptaLoop_pop hs now hlt hhd]
          obtain ⟨ys, hys⟩ := List.head?_eq_some_iff.mp hhd
          have hmem : hd ∈ waitingSorted st.persons := by
            rw [hys]; exact List.mem_cons_self hd ys
          obtain ⟨hin, hwst⟩ := mem_waitingSorted.mp hmem
          exact ptaLoop_I1 now fuel _
            (popAt_I1 hI1 hnd hin hwst (a + st.setting.tourLengthSeconds)).2
            (nodupIds_map _ (popAtMap_id hd.id hd.position
              (a + st.setting.tourLengthSeconds)) hnd)

theorem pta_I1 (st : AppState) (hI1 : I1 st.persons) (hnd : NodupIds st.persons)
    (now : Int) : I1 (process_timer_advances st now).persons := by
  unfold process_timer_advances
  split_ifs
  · exact hI1
  · exact (ptaLoop_I1 now (st.persons.length + 1) st hI1 hnd).1

/-- The undo update (shift every waiting row up by one, reinsert the
passed row `lp` at position 1) restores I1 with one more waiting row. -/
theorem goBack_I1 {ps : List Person} (hI1 : I1 ps) (hnd : NodupIds ps)
    {lp : Person} (hlp : lp ∈ ps) (hlpst : lp.status = Status.passed) :
    I1 (ps.map (goBackMap lp.id)) := by
  have hchar : ∀ p ∈ ps, (p = lp ∧ goBackMap lp.id p =
      { lp with status := Status.waiting, position := some 1, passedAt := none }) ∨
      (p ≠ lp ∧ p.status = Status.waiting ∧ ∃ j, p.position = some j ∧
        1 ≤ j ∧ j ≤ (nWaiting ps : Int) ∧
        goBackMap lp.id p = { p with position := some (j + 1) }) ∨
      (p ≠ lp ∧ p.status = Status.passed ∧ goBackMap lp.id p = p) := by
    intro p hp
    by_cases hid : p.id = lp.id
    · have hpe : p = lp := id_inj hnd hp hlp hid
      subst hpe
      refine Or.inl ⟨rfl, ?_⟩
      simp [goBackMap, goBackShift, goBackInsert, hlpst]
    · have hpne : p ≠ lp := fun h => hid (by rw [h])
      by_cases hst : p.status = Status.waiting
      · obtain ⟨j, hj, h1j, hjN⟩ := waiting_pos_bounds hI1 hp hst
        refine Or.inr (Or.inl ⟨hpne, hst, j, hj, h1j, hjN, ?_⟩)
        simp [goBackMap, goBackShift, goBackInsert, hst, hj, hid]
      · have hpass : p.status = Status.passed := by
          cases hs2 : p.status
          · exact absurd hs2 hst
          · rfl
        refine Or.inr (Or.inr ⟨hpne, hpass, ?_⟩)
        simp [goBackMap, goBackShift, goBackInsert, hpass, hid]
  have hnw : nWaiting (ps.map (goBackMap lp.id)) = nWaiting ps + 1 := by
    rw [nW_map, nW_base]
    have hsplit := countP_split ps
      (fun p => decide ((goBackMap lp.id p).status = Status.waiting))
      (fun p => decide (p = lp))
    have hone : ps.countP (fun p =>
        decide ((goBackMap lp.id p).status = Status.waiting) &&
        decide (p = lp)) = 1 := by
      apply countP_eq_one_of_unique (nodup_of_nodupIds hnd) hlp
      · have : goBackMap lp.id lp =
            { lp with status := Status.waiting, position := some 1, passedAt := none } := by
          simp [goBackMap, goBackShift, goBackInsert, hlpst]
        simp [this]
      · intro x _ hx
        simp only [Bool.and_eq_true, decide_eq_true_eq] at hx
        exact hx.2
    have hrest : ps.countP (fun p =>
        decide ((goBackMap lp.id p).status = Status.waiting) &&
        !(decide (p = lp))) =
        ps.countP (fun p => decide (p.status = Status.waiting)) := by
      apply List.countP_congr
      intro p hp
      rcases hchar p hp with ⟨hpe, heq⟩ | ⟨hne, hst, j, hj, h1j, hjN, heq⟩ | ⟨hne, hst, heq⟩
      · subst hpe
        simp [hlpst]
      · rw [heq] <;> simp [hst, hne]
      · rw [heq] <;> simp [hst, hne]
    omega
  rw [I1_iff_count]
  intro v
  rw [hnw, cnt_map]
  have hlpimg : goBackMap lp.id lp =
      { lp with status := Status.waiting, position := some 1, passedAt := none } := by
    simp [goBackMap, goBackShift, goBackInsert, hlpst]
  cases v with
  | none =>
    have hzero : ps.countP (fun p =>
        decide ((goBackMap lp.id p).position = none) &&
        decide ((goBackMap lp.id p).status = Status.waiting)) = 0 := by
      rw [List.countP_eq_zero]
      intro p hp
      rcases hchar p hp with ⟨hpe, heq⟩ | ⟨hne, hst, j, hj, h1j, hjN, heq⟩ | ⟨hne, hst, heq⟩
      · rw [heq]
        simp
      · rw [heq]
        simp [hst, hj]
      · rw [heq]
        simp [hst]
    rw [hzero]
    rfl
  | some m =>
    by_cases hm1 : m = 1
    · subst hm1
      have hcong : ps.countP (fun p =>
          decide ((goBackMap lp.id p).position = some 1) &&
          decide ((goBackMap lp.id p).status = Status.waiting)) =
          ps.countP (fun p => decide (p = lp)) := by
        apply List.countP_congr
        intro p hp
        rcases hchar p hp with ⟨hpe, heq⟩ | ⟨hne, hst, j, hj, h1j, hjN, heq⟩ | ⟨hne, hst, heq⟩
        · rw [heq]
          simp [hpe]
        · rw [heq]
          simp only [Bool.and_eq_true, decide_eq_true_eq, hst, and_true, Option.some.injEq]
          constructor
          · intro h
            exact absurd h (by omega)
          · intro h
            exact absurd h hne
        · rw [heq]
          simp [hst, hne]
      rw [hcong]
      have hcnt1 : ps.countP (fun p => decide (p = lp)) = 1 :=
        List.count_eq_one_of_mem (nodup_of_nodupIds hnd) hlp
      rw [hcnt1]
      simp only [optExpected]
      rw [if_pos (by omega)]
    · have hcong : ps.countP (fun p =>
          decide ((goBackMap lp.id p).position = some m) &&
          decide ((goBackMap lp.id p).status = Status.waiting)) =
          ps.countP (fun p =>
            decide (p.position = some (m - 1)) && decide (p.status = Status.waiting)) := by
        apply List.countP_congr
        intro p hp
        rcases hchar p hp with ⟨hpe, heq⟩ | ⟨hne, hst, j, hj, h1j, hjN, heq⟩ | ⟨hne, hst, heq⟩
        · rw [heq]
          subst hpe
          simp only [Bool.and_eq_true, decide_eq_true_eq, Option.some.injEq]
          constructor
          · rintro ⟨h1, -⟩
            exact absurd h1.symm hm1
          · rintro ⟨-, h2⟩
            rw [h2] at hlpst
            exact absurd hlpst (by simp)
        · rw [heq]
          simp only [Bool.and_eq_true, decide_eq_true_eq, hst, hj, and_true,
            Option.some.injEq]
          constructor <;> intro h <;> omega
        · rw [heq] <;> simp [hst]
      rw [hcong, ← cnt_base, (I1_iff_count.mp hI1) (some (m - 1))]
      simp only [optExpected]
      split_ifs <;> push_cast at * <;> omega

/-! ### I1 preservation for the remaining operations (C1) -/

/-- The passed-to-passed branch of `move_person_to` as a single row
update: restamp the row `pid` and leave everything else alone. -/
def restampMap (pid : Nat) (now : Int) (q : Person) : Person :=
  if q.id = pid then { q with status := Status.passed, passedAt := some now } else q

/-- Restamping an already-passed row leaves the waiting rows, hence I1,
intact. -/
theorem restamp_I1 {ps : List Person} (hI1 : I1 ps) (hnd : NodupIds ps)
    {p0 : Person} (hp0 : p0 ∈ ps) (hp0st : p0.status = Status.passed) (now : Int) :
    I1 (ps.map (restampMap p0.id now)) := by
  have hchar : ∀ p ∈ ps,
      (p.id = p0.id ∧ p.status = Status.passed) ∨ ¬(p.id = p0.id) := by
    intro p hp
    by_cases hid : p.id = p0.id
    · exact Or.inl ⟨hid, by rw [id_inj hnd hp hp0 hid]; exact hp0st⟩
    · exact Or.inr hid
  have hnw : nWaiting (ps.map (restampMap p0.id now)) = nWaiting ps := by
    rw [nW_map, nW_base]
    apply List.countP_congr
    intro p hp
    rcases hchar p hp with ⟨hid, hst⟩ | hid
    · simp [restampMap, hid, hst]
    · simp [restampMap, hid]
  rw [I1_iff_count]
  intro v
  rw [hnw, cnt_map]
  have hcnt : ps.countP (fun p =>
      decide ((restampMap p0.id now p).position = v) &&
      decide ((restampMap p0.id now p).status = Status.waiting)) =
      ps.countP (fun p => decide (p.position = v) && decide (p.status = Status.waiting)) := by
    apply List.countP_congr
    intro p hp
    rcases hchar p hp with ⟨hid, hst⟩ | hid
    · simp [restampMap, hid, hst]
    · simp [restampMap, hid]
  rw [hcnt, ← cnt_base]
  exact (I1_iff_count.mp hI1) v

/-- Mapping a status-preserving row update commutes with the waiting
filter. -/
theorem waitingList_map {ps : List Person} {u : Person → Person}
    (hu : ∀ p, (u p).status = p.status) :
    waitingList (ps.map u) = (waitingList ps).map u := by
  unfold waitingList
  rw [List.filter_map]
  congr 1
  apply List.filter_congr
  intro p _
  simp [Function.comp, hu p]

/-- Closed form of the `reorder_waiting` position loop on one row: a row
whose id occurs in the submitted list receives position
`k + (index of its id)`. -/
def orderMap (ids : List Nat) (k : Int) (p : Person) : Person :=
  if p.id ∈ ids then { p with position := some (k + (ids.indexOf p.id : Int)) } else p

theorem applyOrder_eq (ids : List Nat) (k : Int) (ps : List Person) (hnd : ids.Nodup) :
    applyOrder ids k ps = ps.map (orderMap ids k) := by
  induction ids generalizing k ps with
  | nil =>
    simp only [applyOrder]
    rw [show ps.map (orderMap [] k) = ps.map id from
      List.map_congr_left (fun p _ => by simp [orderMap]), List.map_id]
  | cons pid rest ih =>
    simp only [applyOrder]
    rw [ih (k + 1) _ (List.Nodup.of_cons hnd), List.map_map]
    apply List.map_congr_left
    intro p _
    simp only [Function.comp]
    by_cases hid : p.id = pid
    · have hnotin : pid ∉ rest := (List.nodup_cons.mp hnd).1
      rw [if_pos hid]
      rw [show orderMap rest (k + 1) { p with position := some k } =
          { p with position := some k } from by
        unfold orderMap
        rw [if_neg (by simpa [hid] using hnotin)]]
      unfold orderMap
      rw [if_pos (by simp [hid])]
      simp [hid, List.indexOf_cons_self]
    · rw [if_neg hid]
      by_cases hin : p.id ∈ rest
      · unfold orderMap
        rw [if_pos hin, if_pos (by simp [hin])]
        have hidx : (pid :: rest).indexOf p.id = rest.indexOf p.id + 1 := by
          rw [List.indexOf_cons_ne _ (fun h => hid h.symm)]
        rw [hidx]
        congr 1
        push_cast
        ring
      · unfold orderMap
        rw [if_neg hin, if_neg (by simp [hid, hin])]

/-- The reorder loop preserves I1 whenever the submitted id list is a
permutation of the waiting ids (the condition the validation fails to
enforce in full). -/
theorem reorder_I1 {ps : List Person} (hI1 : I1 ps) (hnd : NodupIds ps)
    {ids : List Nat} (hperm : List.Perm ids (waitingIds ps)) :
    I1 (applyOrder ids 1 ps) := by
  have hwnd : (waitingIds ps).Nodup := by
    unfold waitingIds waitingList
    exact List.Nodup.sublist (List.Sublist.map Person.id (List.filter_sublist ps)) hnd
  have hidnd : ids.Nodup := (List.Perm.nodup_iff hperm).mpr hwnd
  rw [applyOrder_eq _ _ _ hidnd]
  have hu : ∀ p, (orderMap ids 1 p).status = p.status := by
    intro p
    unfold orderMap
    split_ifs <;> rfl
  have hwl : waitingList (ps.map (orderMap ids 1)) = (waitingList ps).map (orderMap ids 1) :=
    waitingList_map hu
  have hnw : nWaiting (ps.map (orderMap ids 1)) = nWaiting ps := by
    unfold nWaiting
    rw [hwl, List.length_map]
  have hlen : ids.length = nWaiting ps := by
    rw [List.Perm.length_eq hperm]
    unfold waitingIds nWaiting
    rw [List.length_map]
  unfold I1
  rw [hnw]
  have hwp : wPositions (ps.map (orderMap ids 1)) =
      (waitingIds ps).map (fun i => some (1 + (ids.indexOf i : Int))) := by
    unfold wPositions
    rw [hwl, List.map_map]
    unfold waitingIds
    rw [List.map_map]
    apply List.map_congr_left
    intro p hp
    have hpid : p.id ∈ ids := (List.Perm.mem_iff hperm).mpr
      (List.mem_map.mpr ⟨p, hp, rfl⟩)
    simp only [Function.comp]
    unfold orderMap
    rw [if_pos hpid]
  have hval : ids.map (fun i => some (1 + (ids.indexOf i : Int))) = posTarget ids.length := by
    apply List.ext_getElem
    · rw [List.length_map]
      unfold posTarget
      rw [List.length_map, List.length_range]
    · intro n h1 h2
      rw [List.getElem_map, List.indexOf_getElem hidnd]
      simp only [posTarget, List.getElem_map, List.getElem_range, Option.some.injEq]
      omega

  have hperm2 : List.Perm
      ((waitingIds ps).map (fun i => some (1 + (ids.indexOf i : Int))))
      (ids.map (fun i => some (1 + (ids.indexOf i : Int)))) :=
    List.Perm.map _ hperm.symm
  rw [hval, hlen] at hperm2
  rw [hwp]
  exact hperm2

/-- Generic reposition lemma: an update `u` that moves the waiting row
`p0` from position `op` to position `t` and relabels every other waiting
position `j` to `σ j`, where `σ` restricts to a bijection (with inverse
`τ`) between the old positions other than `op` and the new positions
other than `t`, preserves I1. -/
theorem shiftSet_I1 {ps : List Person} (hI1 : I1 ps) (hnd : NodupIds ps)
    {p0 : Person} (hp0 : p0 ∈ ps) (hw0 : p0.status = Status.waiting)
    {op : Int} (hop : p0.position = some op)
    (u : Person → Person) (σ τ : Int → Int) (t : Int)
    (ht1 : 1 ≤ t) (htN : t ≤ (nWaiting ps : Int))
    (hu0 : u p0 = { p0 with position := some t })
    (huw : ∀ p ∈ ps, p ≠ p0 → p.status = Status.waiting → ∀ j : Int,
      p.position = some j → u p = { p with position := some (σ j) })
    (hup : ∀ p ∈ ps, p.status = Status.passed → u p = p)
    (hσ : ∀ j : Int, 1 ≤ j → j ≤ (nWaiting ps : Int) → j ≠ op →
      1 ≤ σ j ∧ σ j ≤ (nWaiting ps : Int) ∧ σ j ≠ t ∧ τ (σ j) = j)
    (hτ : ∀ m : Int, 1 ≤ m → m ≤ (nWaiting ps : Int) → m ≠ t →
      1 ≤ τ m ∧ τ m ≤ (nWaiting ps : Int) ∧ τ m ≠ op ∧ σ (τ m) = m) :
    I1 (ps.map u) := by
  have hchar : ∀ p ∈ ps,
      (p = p0 ∧ u p = { p0 with position := some t }) ∨
      (p ≠ p0 ∧ p.status = Status.waiting ∧ ∃ j : Int, p.position = some j ∧
        1 ≤ j ∧ j ≤ (nWaiting ps : Int) ∧ j ≠ op ∧
        u p = { p with position := some (σ j) }) ∨
      (p ≠ p0 ∧ p.status = Status.passed ∧ u p = p) := by
    intro p hp
    by_cases hpe : p = p0
    · subst hpe
      exact Or.inl ⟨rfl, hu0⟩
    · by_cases hst : p.status = Status.waiting
      · obtain ⟨j, hj, h1j, hjN⟩ := waiting_pos_bounds hI1 hp hst
        have hjop : j ≠ op := by
          intro h
          subst h
          exact hpe (waiting_pos_unique hI1 hp hst hj hp0 hw0 hop)
        exact Or.inr (Or.inl ⟨hpe, hst, j, hj, h1j, hjN, hjop, huw p hp hpe hst j hj⟩)
      · have hpass : p.status = Status.passed := by
          cases hs2 : p.status
          · exact absurd hs2 hst
          · rfl
        exact Or.inr (Or.inr ⟨hpe, hpass, hup p hp hpass⟩)
  have hnw : nWaiting (ps.map u) = nWaiting ps := by
    rw [nW_map, nW_base]
    apply List.countP_congr
    intro p hp
    rcases hchar p hp with ⟨hpe, heq⟩ | ⟨hne, hst, j, hj, h1j, hjN, hjop, heq⟩ | ⟨hne, hst, heq⟩
    · subst hpe
      rw [heq] <;> simp [hw0]
    · rw [heq] <;> simp [hst]
    · rw [heq]
  rw [I1_iff_count]
  intro v
  rw [hnw, cnt_map]
  cases v with
  | none =>
    have hzero : ps.countP (fun p =>
        decide ((u p).position = none) && decide ((u p).status = Status.waiting)) = 0 := by
      rw [List.countP_eq_zero]
      intro p hp
      rcases hchar p hp with ⟨hpe, heq⟩ | ⟨hne, hst, j, hj, h1j, hjN, hjop, heq⟩ | ⟨hne, hst, heq⟩
      · rw [heq]
        simp
      · rw [heq]
        simp
      · rw [heq]
        simp [hst]
    rw [hzero]
    rfl
  | some m =>
    by_cases hmt : m = t
    · rw [hmt]
      have hcong : ps.countP (fun p =>
          decide ((u p).position = some t) && decide ((u p).status = Status.waiting)) =
          ps.countP (fun p => decide (p = p0)) := by
        apply List.countP_congr
        intro p hp
        rcases hchar p hp with ⟨hpe, heq⟩ | ⟨hne, hst, j, hj, h1j, hjN, hjop, heq⟩ | ⟨hne, hst, heq⟩
        · subst hpe
          rw [heq] <;> simp [hw0]
        · obtain ⟨hσ1, hσN, hσt, hτσ⟩ := hσ j h1j hjN hjop
          rw [heq] <;> simp [hst, hne, hσt]
        · rw [heq] <;> simp [hst, hne]
      have hcnt1 : ps.countP (fun p => decide (p = p0)) = 1 :=
        List.count_eq_one_of_mem (nodup_of_nodupIds hnd) hp0
      rw [hcong, hcnt1]
      simp only [optExpected]
      rw [if_pos ⟨ht1, htN⟩]
    · by_cases hmb : 1 ≤ m ∧ m ≤ (nWaiting ps : Int)
      · obtain ⟨hτ1, hτN, hτop, hστ⟩ := hτ m hmb.1 hmb.2 hmt
        have hcong : ps.countP (fun p =>
            decide ((u p).position = some m) && decide ((u p).status = Status.waiting)) =
            ps.countP (fun p =>
              decide (p.position = some (τ m)) && decide (p.status = Status.waiting)) := by
          apply List.countP_congr
          intro p hp
          rcases hchar p hp with ⟨hpe, heq⟩ | ⟨hne, hst, j, hj, h1j, hjN, hjop, heq⟩ | ⟨hne, hst, heq⟩
          · subst hpe
            have h1 : t ≠ m := fun h => hmt h.symm
            have h2 : op ≠ τ m := fun h => hτop h.symm
            rw [heq] <;> simp [hw0, hop, h1, h2]
          · obtain ⟨hσ1, hσN, hσt, hτσ⟩ := hσ j h1j hjN hjop
            rw [heq]
            simp only [Bool.and_eq_true, decide_eq_true_eq, hst, and_true, hj,
              Option.some.injEq]
            constructor
            · intro h
              rw [← h, hτσ]
            · intro h
              rw [h, hστ]
          · rw [heq] <;> simp [hst]
        rw [hcong, ← cnt_base, (I1_iff_count.mp hI1) (some (τ m))]
        simp only [optExpected]
        rw [if_pos ⟨hτ1, hτN⟩, if_pos hmb]
      · have hzero : ps.countP (fun p =>
            decide ((u p).position = some m) && decide ((u p).status = Status.waiting)) = 0 := by
          rw [List.countP_eq_zero]
          intro p hp
          rcases hchar p hp with ⟨hpe, heq⟩ | ⟨hne, hst, j, hj, h1j, hjN, hjop, heq⟩ | ⟨hne, hst, heq⟩
          · rw [heq]
            simp [hw0]
            omega
          · obtain ⟨hσ1, hσN, hσt, hτσ⟩ := hσ j h1j hjN hjop
            rw [heq]
            simp [hst]
            omega
          · rw [heq]
            simp [hst]
        rw [hzero]
        simp only [optExpected]
        rw [if_neg hmb]

/-- Generic insertion lemma: an update `u` that turns the passed row `p0`
into a waiting row at position `ins` and shifts every waiting position at
or after `ins` up by one preserves I1 with one more waiting row. -/
theorem insertShift_I1 {ps : List Person} (hI1 : I1 ps) (hnd : NodupIds ps)
    {p0 : Person} (hp0 : p0 ∈ ps) (hp0st : p0.status = Status.passed)
    (u : Person → Person) (ins : Int)
    (hins1 : 1 ≤ ins) (hinsN : ins ≤ (nWaiting ps : Int) + 1)
    (hu0 : u p0 = { p0 with status := Status.waiting, position := some ins, passedAt := none })
    (huw : ∀ p ∈ ps, p.status = Status.waiting → ∀ j : Int, p.position = some j →
      u p = if ins ≤ j then { p with position := some (j + 1) } else p)
    (hup : ∀ p ∈ ps, p ≠ p0 → p.status = Status.passed → u p = p) :
    I1 (ps.map u) := by
  have hchar : ∀ p ∈ ps,
      (p = p0 ∧ u p =
        { p0 with status := Status.waiting, position := some ins, passedAt := none }) ∨
      (p ≠ p0 ∧ p.status = Status.waiting ∧ ∃ j : Int, p.position = some j ∧
        1 ≤ j ∧ j ≤ (nWaiting ps : Int) ∧
        ((ins ≤ j ∧ u p = { p with position := some (j + 1) }) ∨
          (j < ins ∧ u p = p))) ∨
      (p ≠ p0 ∧ p.status = Status.passed ∧ u p = p) := by
    intro p hp
    by_cases hpe : p = p0
    · subst hpe
      exact Or.inl ⟨rfl, hu0⟩
    · by_cases hst : p.status = Status.waiting
      · obtain ⟨j, hj, h1j, hjN⟩ := waiting_pos_bounds hI1 hp hst
        have h := huw p hp hst j hj
        by_cases hile : ins ≤ j
        · exact Or.inr (Or.inl ⟨hpe, hst, j, hj, h1j, hjN,
            Or.inl ⟨hile, by rw [h, if_pos hile]⟩⟩)
        · exact Or.inr (Or.inl ⟨hpe, hst, j, hj, h1j, hjN,
            Or.inr ⟨by omega, by rw [h, if_neg hile]⟩⟩)
      · have hpass : p.status = Status.passed := by
          cases hs2 : p.status
          · exact absurd hs2 hst
          · rfl
        exact Or.inr (Or.inr ⟨hpe, hpass, hup p hp hpe hpass⟩)
  have hnw : nWaiting (ps.map u) = nWaiting ps + 1 := by
    rw [nW_map, nW_base]
    have hsplit := countP_split ps
      (fun p => decide ((u p).status = Status.waiting))
      (fun p => decide (p = p0))
    have hone : ps.countP (fun p =>
        decide ((u p).status = Status.waiting) && decide (p = p0)) = 1 := by
      apply countP_eq_one_of_unique (nodup_of_nodupIds hnd) hp0
      · simp [hu0]
      · intro x _ hx
        simp only [Bool.and_eq_true, decide_eq_true_eq] at hx
        exact hx.2
    have hrest : ps.countP (fun p =>
        decide ((u p).status = Status.waiting) && !(decide (p = p0))) =
        ps.countP (fun p => decide (p.status = Status.waiting)) := by
      apply List.countP_congr
      intro p hp
      rcases hchar p hp with ⟨hpe, heq⟩ |
        ⟨hne, hst, j, hj, h1j, hjN, ⟨hile, heq⟩ | ⟨hlt, heq⟩⟩ | ⟨hne, hst, heq⟩
      · subst hpe
        simp [heq, hp0st]
      · rw [heq] <;> simp [hst, hne]
      · rw [heq] <;> simp [hst, hne]
      · rw [heq] <;> simp [hst, hne]
    omega
  rw [I1_iff_count]
  intro v
  rw [hnw, cnt_map]
  cases v with
  | none =>
    have hzero : ps.countP (fun p =>
        decide ((u p).position = none) && decide ((u p).status = Status.waiting)) = 0 := by
      rw [List.countP_eq_zero]
      intro p hp
      rcases hchar p hp with ⟨hpe, heq⟩ |
        ⟨hne, hst, j, hj, h1j, hjN, ⟨hile, heq⟩ | ⟨hlt, heq⟩⟩ | ⟨hne, hst, heq⟩
      · rw [heq]
        simp
      · rw [heq]
        simp
      · rw [heq]
        simp [hj]
      · rw [heq]
        simp [hst]
    rw [hzero]
    rfl
  | some m =>
    by_cases hmi : m = ins
    · rw [hmi]
      have hcong : ps.countP (fun p =>
          decide ((u p).position = some ins) && decide ((u p).status = Status.waiting)) =
          ps.countP (fun p => decide (p = p0)) := by
        apply List.countP_congr
        intro p hp
        rcases hchar p hp with ⟨hpe, heq⟩ |
          ⟨hne, hst, j, hj, h1j, hjN, ⟨hile, heq⟩ | ⟨hlt, heq⟩⟩ | ⟨hne, hst, heq⟩
        · subst hpe
          rw [heq] <;> simp
        · rw [heq] <;> simp [hst, hne] <;> omega
        · rw [heq] <;> simp [hst, hne, hj] <;> omega
        · rw [heq] <;> simp [hst, hne]
      have hcnt1 : ps.countP (fun p => decide (p = p0)) = 1 :=
        List.count_eq_one_of_mem (nodup_of_nodupIds hnd) hp0
      rw [hcong, hcnt1]
      simp only [optExpected]
      rw [if_pos (by omega)]
    · by_cases hord : ins < m
      · have hcong : ps.countP (fun p =>
            decide ((u p).position = some m) && decide ((u p).status = Status.waiting)) =
            ps.countP (fun p =>
              decide (p.position = some (m - 1)) && decide (p.status = Status.waiting)) := by
          apply List.countP_congr
          intro p hp
          rcases hchar p hp with ⟨hpe, heq⟩ |
            ⟨hne, hst, j, hj, h1j, hjN, ⟨hile, heq⟩ | ⟨hlt, heq⟩⟩ | ⟨hne, hst, heq⟩
          · subst hpe
            have h1 : ins ≠ m := fun h => hmi h.symm
            rw [heq] <;> simp [hp0st, h1]
          · rw [heq]
            simp only [Bool.and_eq_true, decide_eq_true_eq, hst, and_true, hj,
              Option.some.injEq]
            constructor <;> intro h <;> omega
          · rw [heq]
            simp only [Bool.and_eq_true, decide_eq_true_eq, hst, and_true, hj,
              Option.some.injEq]
            constructor <;> intro h <;> omega
          · rw [heq] <;> simp [hst]
        rw [hcong, ← cnt_base, (I1_iff_count.mp hI1) (some (m - 1))]
        simp only [optExpected]
        split_ifs <;> push_cast at * <;> omega
      · have hcong : ps.countP (fun p =>
            decide ((u p).position = some m) && decide ((u p).status = Status.waiting)) =
            ps.countP (fun p =>
              decide (p.position = some m) && decide (p.status = Status.waiting)) := by
          apply List.countP_congr
          intro p hp
          rcases hchar p hp with ⟨hpe, heq⟩ |
            ⟨hne, hst, j, hj, h1j, hjN, ⟨hile, heq⟩ | ⟨hlt, heq⟩⟩ | ⟨hne, hst, heq⟩
          · subst hpe
            have h1 : ins ≠ m := fun h => hmi h.symm
            rw [heq] <;> simp [hp0st, h1]
          · rw [heq]
            simp only [Bool.and_eq_true, decide_eq_true_eq, hst, and_true, hj,
              Option.some.injEq]
            constructor <;> intro h <;> omega
          · rw [heq]
          · rw [heq] <;> simp [hst]
        rw [hcong, ← cnt_base, (I1_iff_count.mp hI1) (some m)]
        simp only [optExpected]
        split_ifs <;> push_cast at * <;> omega

theorem finishMove_persons (st : AppState) (now : Int) :
    (finishMove st now).persons = st.persons := rfl

/-- Every successful `move_person_to` preserves I1. -/
theorem moveOk_I1 {st : AppState} (hI1 : I1 st.persons) (hnd : NodupIds st.persons)
    (personId : Nat) (toStatus : String) (toPosition : Option Int) (now : Int)
    {st2 : AppState} (hok : move_person_to st personId toStatus toPosition now =
      Except.ok st2) :
    I1 st2.persons := by
  unfold move_person_to at hok
  cases hfind : st.persons.find? (fun p => p.id == personId) with
  | none =>
    simp only [hfind] at hok
    exact Except.noConfusion hok
  | some p =>
    simp only [hfind] at hok
    have hpmem : p ∈ st.persons := List.mem_of_find?_eq_some hfind
    by_cases hts : toStatus = "waiting"
    · rw [if_pos hts] at hok
      by_cases hpst : p.status = Status.passed
      · rw [if_pos (by simp [hpst])] at hok
        cases toPosition with
        | none =>
          simp only [length_waitingSorted, Except.ok.injEq] at hok
          subst hok
          rw [finishMove_persons, List.map_map]
          apply insertShift_I1 hI1 hnd hpmem hpst _ 1 le_rfl (by omega) ?_ ?_ ?_
          · have hg : ¬((p.status == Status.waiting && posTruthy p.position &&
                ogeB p.position 1) = true) := by
              simp [hpst]
            simp only [Function.comp]
            rw [if_neg hg, if_pos rfl]
          · intro q hq hqst j hjq
            obtain ⟨j2, hj2, h1j2, hj2N⟩ := waiting_pos_bounds hI1 hq hqst
            rw [hjq] at hj2
            have hjj : j = j2 := by simpa using hj2
            subst hjj
            have hqid : ¬(q.id = p.id) := by
              intro h
              rw [id_inj hnd hq hpmem h] at hqst
              rw [hpst] at hqst
              exact absurd hqst (by simp)
            simp only [Function.comp]
            by_cases hile : (1 : Int) ≤ j
            · have hg : (q.status == Status.waiting && posTruthy q.position &&
                  ogeB q.position 1) = true := by
                rw [hqst, hjq]
                simp [posTruthy, ogeB]
                omega
              rw [if_pos hg]
              rw [if_neg (show ¬(({ q with
                  position := q.position.map (fun x => x + 1) } : Person).id = p.id)
                from hqid)]
              rw [if_pos hile, hjq]
              rfl
            · exact absurd h1j2 hile
          · intro q hq hqne hqpass
            have hqid : ¬(q.id = p.id) := fun h => hqne (id_inj hnd hq hpmem h)
            have hg : ¬((q.status == Status.waiting && posTruthy q.position &&
                ogeB q.position 1) = true) := by
              simp [hqpass]
            simp only [Function.comp]
            rw [if_neg hg, if_neg hqid]
        | some tp =>
          simp only [length_waitingSorted, Except.ok.injEq] at hok
          subst hok
          rw [finishMove_persons, List.map_map]
          have hins1 : 1 ≤ (if tp < 1 then 1 else
              min ((nWaiting st.persons : Int) + 1) tp) := by
            split_ifs with h
            · omega
            · exact le_min (by omega) (by omega)
          have hinsN : (if tp < 1 then 1 else
              min ((nWaiting st.persons : Int) + 1) tp) ≤
              (nWaiting st.persons : Int) + 1 := by
            split_ifs with h
            · omega
            · exact min_le_left _ _
          apply insertShift_I1 hI1 hnd hpmem hpst _ _ hins1 hinsN ?_ ?_ ?_
          · have hg : ¬((p.status == Status.waiting && posTruthy p.position &&
                ogeB p.position (if tp < 1 then 1 else
                  min ((nWaiting st.persons : Int) + 1) tp)) = true) := by
              simp [hpst]
            simp only [Function.comp]
            rw [if_neg hg, if_pos rfl]
          · intro q hq hqst j hjq
            obtain ⟨j2, hj2, h1j2, hj2N⟩ := waiting_pos_bounds hI1 hq hqst
            rw [hjq] at hj2
            have hjj : j = j2 := by simpa using hj2
            subst hjj
            have hqid : ¬(q.id = p.id) := by
              intro h
              rw [id_inj hnd hq hpmem h] at hqst
              rw [hpst] at hqst
              exact absurd hqst (by simp)
            simp only [Function.comp]
            by_cases hile : (if tp < 1 then 1 else
                min ((nWaiting st.persons : Int) + 1) tp) ≤ j
            · have hg : (q.status == Status.waiting && posTruthy q.position &&
                  ogeB q.position (if tp < 1 then 1 else
                    min ((nWaiting st.persons : Int) + 1) tp)) = true := by
                rw [hqst, hjq]
                simp [posTruthy, ogeB]
                omega
              rw [if_pos hg]
              rw [if_neg (show ¬(({ q with
                  position := q.position.map (fun x => x + 1) } : Person).id = p.id)
                from hqid)]
              rw [if_pos hile, hjq]
              rfl
            · have hg : ¬((q.status == Status.waiting && posTruthy q.position &&
                  ogeB q.position (if tp < 1 then 1 else
                    min ((nWaiting st.persons : Int) + 1) tp)) = true) := by
                rw [hqst, hjq]
                simp [posTruthy, ogeB]
                omega
              rw [if_neg hg, if_neg hqid, if_neg hile]
          · intro q hq hqne hqpass
            have hqid : ¬(q.id = p.id) := fun h => hqne (id_inj hnd hq hpmem h)
            have hg : ¬((q.status == Status.waiting && posTruthy q.position &&
                ogeB q.position (if tp < 1 then 1 else
                  min ((nWaiting st.persons : Int) + 1) tp)) = true) := by
              simp [hqpass]
            simp only [Function.comp]
            rw [if_neg hg, if_neg hqid]
      · rw [if_neg (by simp [hpst])] at hok
        have hpw : p.status = Status.waiting := by
          cases h2 : p.status
          · rfl
          · exact absurd h2 hpst
        cases toPosition with
        | none =>
          simp only [Except.ok.injEq] at hok
          subst hok
          exact hI1
        | some tpRaw =>
          simp only [length_waitingSorted] at hok
          by_cases hpp : p.position = some (max 1
              (min (nWaiting st.persons : Int) tpRaw))
          · rw [if_pos (by simp [hpp])] at hok
            simp only [Except.ok.injEq] at hok
            subst hok
            exact hI1
          · rw [if_neg (by simp [hpp])] at hok
            simp only [Except.ok.injEq] at hok
            obtain ⟨op, hop, hop1, hopN⟩ := waiting_pos_bounds hI1 hpmem hpw
            have hN1 : 1 ≤ nWaiting st.persons := by
              rw [nW_base]
              exact List.countP_pos.mpr ⟨p, hpmem, by simp [hpw]⟩
            have hgetD : p.position.getD 0 = op := by
              rw [hop]
              rfl
            rw [hgetD] at hok
            have hT1 : 1 ≤ max 1 (min (nWaiting st.persons : Int) tpRaw) :=
              le_max_left _ _
            have hTN : max 1 (min (nWaiting st.persons : Int) tpRaw) ≤
                (nWaiting st.persons : Int) :=
              max_le (by exact_mod_cast hN1) (min_le_left _ _)
            have hTne : op ≠ max 1 (min (nWaiting st.persons : Int) tpRaw) := by
              intro h
              exact hpp (by rw [hop, h])
            by_cases hdir : max 1 (min (nWaiting st.persons : Int) tpRaw) < op
            · rw [if_pos hdir] at hok
              subst hok
              rw [finishMove_persons, List.map_map]
              apply shiftSet_I1 hI1 hnd hpmem hpw hop _
                (fun j => if max 1 (min (nWaiting st.persons : Int) tpRaw) ≤ j ∧
                    j < op then j + 1 else j)
                (fun m => if max 1 (min (nWaiting st.persons : Int) tpRaw) < m ∧
                    m ≤ op then m - 1 else m)
                _ hT1 hTN ?_ ?_ ?_ ?_ ?_
              · have hg : ¬((p.status == Status.waiting &&
                    ogeB p.position (max 1 (min (nWaiting st.persons : Int) tpRaw)) &&
                    oltB p.position op) = true) := by
                  rw [hop, hpw]
                  simp [ogeB, oltB]
                simp only [Function.comp]
                rw [if_neg hg, if_pos rfl]
              · intro q hq hqne hqst j hjq
                have hqid : ¬(q.id = p.id) := fun h => hqne (id_inj hnd hq hpmem h)
                simp only [Function.comp]
                by_cases hwin : max 1 (min (nWaiting st.persons : Int) tpRaw) ≤ j ∧
                    j < op
                · have hg : (q.status == Status.waiting &&
                      ogeB q.position (max 1 (min (nWaiting st.persons : Int) tpRaw)) &&
                      oltB q.position op) = true := by
                    rw [hqst, hjq]
                    simp [ogeB, oltB]
                    omega
                  rw [if_pos hg]
                  rw [if_neg (show ¬(({ q with
                      position := q.position.map (fun x => x + 1) } : Person).id = p.id)
                    from hqid)]
                  rw [if_pos hwin, hjq]
                  rfl
                · have hg : ¬((q.status == Status.waiting &&
                      ogeB q.position (max 1 (min (nWaiting st.persons : Int) tpRaw)) &&
                      oltB q.position op) = true) := by
                    rw [hqst, hjq]
                    simp [ogeB, oltB]
                    omega
                  rw [if_neg hg, if_neg hqid, if_neg hwin, ← hjq]
              · intro q hq hqpass
                have hqid : ¬(q.id = p.id) := by
                  intro h
                  rw [id_inj hnd hq hpmem h] at hqpass
                  rw [hpw] at hqpass
                  exact absurd hqpass (by simp)
                have hg : ¬((q.status == Status.waiting &&
                    ogeB q.position (max 1 (min (nWaiting st.persons : Int) tpRaw)) &&
                    oltB q.position op) = true) := by
                  simp [hqpass]
                simp only [Function.comp]
                rw [if_neg hg, if_neg hqid]
              · intro j h1 h2 h3
                refine ⟨?_, ?_, ?_, ?_⟩ <;> beta_reduce <;> split_ifs <;> omega
              · intro m h1 h2 h3
                refine ⟨?_, ?_, ?_, ?_⟩ <;> beta_reduce <;> split_ifs <;> omega
            · rw [if_neg hdir] at hok
              subst hok
              rw [finishMove_persons, List.map_map]
              apply shiftSet_I1 hI1 hnd hpmem hpw hop _
                (fun j => if op < j ∧
                    j ≤ max 1 (min (nWaiting st.persons : Int) tpRaw) then
                  j - 1 else j)
                (fun m => if op ≤ m ∧
                    m < max 1 (min (nWaiting st.persons : Int) tpRaw) then
                  m + 1 else m)
                _ hT1 hTN ?_ ?_ ?_ ?_ ?_
              · have hg : ¬((p.status == Status.waiting &&
                    oleB p.position (max 1 (min (nWaiting st.persons : Int) tpRaw)) &&
                    ogtkB p.position op) = true) := by
                  rw [hop, hpw]
                  simp [oleB, ogtkB]
                simp only [Function.comp]
                rw [if_neg hg, if_pos rfl]
              · intro q hq hqne hqst j hjq
                have hqid : ¬(q.id = p.id) := fun h => hqne (id_inj hnd hq hpmem h)
                simp only [Function.comp]
                by_cases hwin : op < j ∧
                    j ≤ max 1 (min (nWaiting st.persons : Int) tpRaw)
                · have hg : (q.status == Status.waiting &&
                      oleB q.position (max 1 (min (nWaiting st.persons : Int) tpRaw)) &&
                      ogtkB q.position op) = true := by
                    rw [hqst, hjq]
                    simp [oleB, ogtkB]
                    omega
                  rw [if_pos hg]
                  rw [if_neg (show ¬(({ q with
                      position := q.position.map (fun x => x - 1) } : Person).id = p.id)
                    from hqid)]
                  rw [if_pos hwin, hjq]
                  rfl
                · have hg : ¬((q.status == Status.waiting &&
                      oleB q.position (max 1 (min (nWaiting st.persons : Int) tpRaw)) &&
                      ogtkB q.position op) = true) := by
                    rw [hqst, hjq]
                    simp [oleB, ogtkB]
                    omega
                  rw [if_neg hg, if_neg hqid, if_neg hwin, ← hjq]
              · intro q hq hqpass
                have hqid : ¬(q.id = p.id) := by
                  intro h
                  rw [id_inj hnd hq hpmem h] at hqpass
                  rw [hpw] at hqpass
                  exact absurd hqpass (by simp)
                have hg : ¬((q.status == Status.waiting &&
                    oleB q.position (max 1 (min (nWaiting st.persons : Int) tpRaw)) &&
                    ogtkB q.position op) = true) := by
                  simp [hqpass]
                simp only [Function.comp]
                rw [if_neg hg, if_neg hqid]
              · intro j h1 h2 h3
                refine ⟨?_, ?_, ?_, ?_⟩ <;> beta_reduce <;> split_ifs <;> omega
              · intro m h1 h2 h3
                refine ⟨?_, ?_, ?_, ?_⟩ <;> beta_reduce <;> split_ifs <;> omega
    · by_cases hts2 : toStatus = "passed"
      · rw [if_neg hts, if_pos hts2] at hok
        simp only [Except.ok.injEq] at hok
        by_cases hpst : p.status = Status.waiting
        · rw [if_pos (by simp [hpst])] at hok
          subst hok
          rw [finishMove_persons]
          exact (popAt_I1 hI1 hnd hpmem hpst now).2
        · have hpass : p.status = Status.passed := by
            cases h2 : p.status
            · exact absurd h2 hpst
            · rfl
          rw [if_neg (by simp [hpst])] at hok
          subst hok
          rw [finishMove_persons]
          exact restamp_I1 hI1 hnd hpmem hpass now
      · rw [if_neg hts, if_neg hts2] at hok
        exact Except.noConfusion hok

/-- C1: on every well-formed state (I1, distinct primary keys), each
successful mutating operation — `add_person`, `process_timer_advances`,
`advance_next`, `go_back`, `reorder_waiting`, and `move_person_to` —
yields a state whose waiting positions are again exactly `1..N` for the
new waiting count `N`; for `reorder_waiting` this holds when the
submitted id list is a permutation of the waiting ids, which the code's
validation does not fully enforce (see the counterexample). -/
theorem c1_i1_preserved (st : AppState) (hI1 : I1 st.persons)
    (hnd : NodupIds st.persons) :
    (∀ nm newId now, I1 (add_person st nm newId now).1.persons) ∧
    (∀ now, I1 (process_timer_advances st now).persons) ∧
    (∀ now, I1 (advance_next st now).1.persons) ∧
    (∀ now, I1 (go_back st now).1.persons) ∧
    (∀ ids now st2, List.Perm ids (waitingIds st.persons) →
      reorder_waiting st ids now = Except.ok st2 → I1 st2.persons) ∧
    (∀ personId toStatus toPosition now st2,
      move_person_to st personId toStatus toPosition now = Except.ok st2 →
      I1 st2.persons) := by
  refine ⟨fun nm newId now => add_person_I1 st hI1 nm newId now,
    fun now => pta_I1 st hI1 hnd now,
    fun now => advance_next_I1 st hI1 hnd now,
    fun now => ?_,
    fun ids now st2 hperm hok => ?_,
    fun personId toStatus toPosition now st2 hok =>
      moveOk_I1 hI1 hnd personId toStatus toPosition now hok⟩
  · cases hhd : (passedSorted st.persons).head? with
    | none =>
      unfold go_back
      simp only [hhd]
      exact hI1
    | some lp =>
      have hmem : lp ∈ passedSorted st.persons := by
        obtain ⟨ys, hys⟩ := List.head?_eq_some_iff.mp hhd
        rw [hys]
        exact List.mem_cons_self lp ys
      obtain ⟨hin, hpassed⟩ := mem_passedSorted.mp hmem
      unfold go_back
      simp only [hhd]
      show I1 ((st.persons.map goBackShift).map (goBackInsert lp.id))
      rw [List.map_map]
      exact goBack_I1 hI1 hnd hin hpassed
  · unfold reorder_waiting at hok
    simp only [Except.ok.injEq] at hok
    by_cases hall : ids.all (fun i => (waitingIds st.persons).contains i) = true
    · rw [if_pos hall] at hok
      simp only [Except.ok.injEq] at hok
      subst hok
      exact reorder_I1 hI1 hnd hperm
    · rw [if_neg hall] at hok
      exact Except.noConfusion hok

/-- Witness for C1: on the two-element waiting queue `cst3`, reordering
by the full permutation `[2, 1]` succeeds and I1 holds afterwards, by
the claim theorem applied at this concrete state. -/
theorem c1_witness :
    I1 cst3.persons ∧ NodupIds cst3.persons ∧
    I1 (exceptState (reorder_waiting cst3 [2, 1] 0) cst3).persons :=
  ⟨by decide, by decide,
    (c1_i1_preserved cst3 (by decide) (by decide)).2.2.2.2.1 [2, 1] 0 _
      (by decide) rfl⟩

/-- Counterexample limiting C1 as stated: submitting the proper subset
`[2]` of the waiting ids passes the code's validation, the reorder
succeeds, and the resulting state violates I1 (both waiting rows end up
at position 1). -/
theorem c1_counterexample :
    I1 cst3.persons ∧ NodupIds cst3.persons ∧
    ∃ st2, reorder_waiting cst3 [2] 0 = Except.ok st2 ∧ ¬ I1 st2.persons :=
  ⟨by decide, by decide, exceptState (reorder_waiting cst3 [2] 0) cst3,
    rfl, by decide⟩

/-- Witness for C8: on `cst10` (one waiting entry, one stale passed
entry), advancing at instant 5 and undoing at instant 9 restores every
entry's id, status, and waiting position. -/
theorem c8_witness :
    I1 cst10.persons ∧ NodupIds cst10.persons ∧ 1 ≤ nWaiting cst10.persons ∧
    (go_back (advance_next cst10 5).1 9).1.persons.map
        (fun p => (p.id, p.status, p.position)) =
      cst10.persons.map (fun p => (p.id, p.status, p.position)) := by
  refine ⟨by decide, by decide, by decide, ?_⟩
  apply c8_advance_undo_roundtrip cst10 5 9 (by decide) (by decide) (by decide)
  intro p hp hpass t ht
  simp only [cst10, List.mem_cons, List.not_mem_nil, or_false] at hp
  rcases hp with rfl | rfl
  · simp at hpass
  · simp at ht
    omega

end Erod
